import Mathlib

/-!
Verification of the core address pipeline of the `belpost-address-finder`
repository (Python), shallowly embedded in Lean 4.

Conventions of the embedding:
* Python strings are modelled as `List Char` (wrapped in `String` where the
  Python function takes `str`).
* Python `str.strip()` / regex `\s` are modelled over the ASCII whitespace
  set (space, tab, newline, carriage return, vertical tab, form feed).
* Python `str.upper()` / `str.lower()` are modelled for ASCII letters and
  the Russian Cyrillic block (А-Я/а-я plus Ё/ё), the alphabets occurring in
  the program's data.  Other characters are left unchanged.
* The regex class `\w` (Unicode mode) is modelled as ASCII alphanumerics,
  underscore, and the Cyrillic block U+0400-U+04FF.
* Regex `\d` is modelled as the ASCII digits.
* Python `int` arithmetic on parsed nonnegative digit runs is `Nat`.
-/

/-- ASCII whitespace: the characters stripped by Python `str.strip()` and
matched by the regex class `\s` in the program's data. -/
def isPySpace (c : Char) : Bool :=
  c.toNat = 32 || c.toNat = 9 || c.toNat = 10 || c.toNat = 13 || c.toNat = 11 || c.toNat = 12

/-- ASCII decimal digit, the model of the regex class `\d`. -/
def isDigitChar (c : Char) : Bool :=
  48 ≤ c.toNat && c.toNat ≤ 57

/-- Word character, the model of the regex class `\w`: ASCII alphanumeric,
underscore, or a Cyrillic-block letter. -/
def isWordChar (c : Char) : Bool :=
  (65 ≤ c.toNat && c.toNat ≤ 90) || (97 ≤ c.toNat && c.toNat ≤ 122) ||
  (48 ≤ c.toNat && c.toNat ≤ 57) || c.toNat = 95 ||
  (0x400 ≤ c.toNat && c.toNat ≤ 0x4FF)

/-- Python `str.lower()` on one character (ASCII + Russian Cyrillic). -/
def pyLowerChar (c : Char) : Char :=
  if 65 ≤ c.toNat ∧ c.toNat ≤ 90 then Char.ofNat (c.toNat + 32)
  else if 0x410 ≤ c.toNat ∧ c.toNat ≤ 0x42F then Char.ofNat (c.toNat + 0x20)
  else if c.toNat = 0x401 then Char.ofNat 0x451
  else c

/-- Python `str.upper()` on one character (ASCII + Russian Cyrillic). -/
def pyUpperChar (c : Char) : Char :=
  if 97 ≤ c.toNat ∧ c.toNat ≤ 122 then Char.ofNat (c.toNat - 32)
  else if 0x430 ≤ c.toNat ∧ c.toNat ≤ 0x44F then Char.ofNat (c.toNat - 0x20)
  else if c.toNat = 0x451 then Char.ofNat 0x401
  else c

/-- Python `str.lower()`. -/
def pyLower (l : List Char) : List Char := l.map pyLowerChar

/-- Python `str.upper()`. -/
def pyUpper (l : List Char) : List Char := l.map pyUpperChar

/-- Python `str.strip()` (remove leading and trailing whitespace). -/
def pyStrip (l : List Char) : List Char :=
  ((l.dropWhile isPySpace).reverse.dropWhile isPySpace).reverse

/-- Python `str.capitalize()`: first character upper-cased, the rest
lower-cased. -/
def pyCapitalize (l : List Char) : List Char :=
  match l with
  | [] => []
  | c :: r => pyUpperChar c :: pyLower r

/-- Python `s.split(",")` at the character-list level: cut at every comma,
keeping empty pieces (so `"".split(",") = [""]`). -/
def splitOnComma : List Char → List (List Char)
  | [] => [[]]
  | c :: rest =>
    match splitOnComma rest with
    | [] => [[]]
    | h :: t => if c = ',' then [] :: h :: t else (c :: h) :: t

/-- Value of a run of ASCII decimal digits, as Python `int()` reads it. -/
def natOfDigits (l : List Char) : Nat :=
  l.foldl (fun acc c => acc * 10 + (c.toNat - 48)) 0

/-- The match of `re.match(r"\((\d+)-(\d+)\)", part)`: an anchored-at-start
parenthesised pair of digit runs (trailing junk after `)` is allowed,
because `re.match` only anchors the start).  The greedy digit runs are
modelled by `takeWhile`, which is exact here since `-` and `)` are not
digits. -/
def parseParityRange (part : List Char) : Option (Nat × Nat) :=
  match part with
  | '(' :: rest =>
    let ds := rest.takeWhile isDigitChar
    let rest2 := rest.dropWhile isDigitChar
    if ds = [] then none
    else
      match rest2 with
      | '-' :: rest3 =>
        let es := rest3.takeWhile isDigitChar
        let rest4 := rest3.dropWhile isDigitChar
        if es = [] then none
        else
          match rest4 with
          | ')' :: _ => some (natOfDigits ds, natOfDigits es)
          | _ => none
      | _ => none
  | _ => none

/-- The match of `re.match(r"^(\d+)-(\d+)$", part)`: exactly a digit run, a
dash, and a digit run, anchored at both ends. -/
def parsePlainRange (part : List Char) : Option (Nat × Nat) :=
  let ds := part.takeWhile isDigitChar
  let rest := part.dropWhile isDigitChar
  if ds = [] then none
  else
    match rest with
    | '-' :: rest2 =>
      let es := rest2.takeWhile isDigitChar
      let rest3 := rest2.dropWhile isDigitChar
      if es = [] then none
      else
        match rest3 with
        | [] => some (natOfDigits ds, natOfDigits es)
        | _ => none
    | _ => none

/-- One iteration of the clause loop of `AddressProcessor.house_in_range`:
`part` is one comma-separated piece of the rule (already stripped and
upper-cased), `house` the stripped upper-cased house input and `house_num`
its leading digit run.  A parity range matches when the house number shares
the start's parity and lies inside; a plain range matches when it lies
inside; any other token must equal the house input literally
(`part == house.upper()`). -/
def clauseMatches (house_num : Nat) (house : List Char) (part : List Char) : Bool :=
  match parseParityRange part with
  | some (s, e) =>
    house_num % 2 == s % 2 && decide (s ≤ house_num) && decide (house_num ≤ e)
  | none =>
    match parsePlainRange part with
    | some (s, e) => decide (s ≤ house_num) && decide (house_num ≤ e)
    | none => part == pyUpper house

/-- `AddressProcessor.house_in_range` (src/core/address_processor.py).
An empty house or rule fails; the whole rule `ВСЕ` always matches; a house
input without a leading digit run fails; otherwise the rule is split on
commas and any matching clause suffices. -/
def house_in_range (house rule : String) : Bool :=
  if house.data = [] ∨ rule.data = [] then false
  else
    let houseU := pyUpper (pyStrip house.data)
    let ruleU := pyUpper (pyStrip rule.data)
    if ruleU = "ВСЕ".data then true
    else
      let run := houseU.takeWhile isDigitChar
      if run = [] then false
      else
        let house_num := natOfDigits run
        let parts := (splitOnComma ruleU).map (fun p => pyUpper (pyStrip p))
        parts.any (fun part => clauseMatches house_num houseU part)

/-! ### Character-level helper lemmas -/

theorem charToNat_ofNat (n : Nat) (h : n < 0xD800) : (Char.ofNat n).toNat = n := by
  have hv : n.isValidChar := Or.inl h
  simp [Char.ofNat, Char.toNat, hv, Char.ofNatAux, UInt32.toNat]

theorem charEq_of_toNat {c d : Char} (h : c.toNat = d.toNat) : c = d := by
  apply Char.eq_of_val_eq
  apply UInt32.toNat.inj
  exact h

theorem charToNat_lt_big (c : Char) : c.toNat < 1114112 := by
  rcases c with ⟨v, hv⟩
  rcases hv with h | ⟨h1, h2⟩
  · exact lt_trans h (by norm_num)
  · exact h2

theorem pyUpperChar_fix {c : Char}
    (h : ¬ (97 ≤ c.toNat ∧ c.toNat ≤ 122) ∧ ¬ (0x430 ≤ c.toNat ∧ c.toNat ≤ 0x44F) ∧
      c.toNat ≠ 0x451) : pyUpperChar c = c := by
  unfold pyUpperChar
  rw [if_neg h.1, if_neg h.2.1, if_neg h.2.2]

theorem pyUpperChar_digit {c : Char} (h : isDigitChar c = true) : pyUpperChar c = c := by
  simp only [isDigitChar, Bool.and_eq_true, decide_eq_true_eq] at h
  exact pyUpperChar_fix (by omega)

/-- The case split of `pyUpperChar` in a `toNat`-friendly form. -/
theorem pyUpperChar_toNat (c : Char) :
    (97 ≤ c.toNat ∧ c.toNat ≤ 122 ∧ (pyUpperChar c).toNat = c.toNat - 32) ∨
    (0x430 ≤ c.toNat ∧ c.toNat ≤ 0x44F ∧ (pyUpperChar c).toNat = c.toNat - 0x20) ∨
    (c.toNat = 0x451 ∧ (pyUpperChar c).toNat = 0x401) ∨
    ((¬ (97 ≤ c.toNat ∧ c.toNat ≤ 122)) ∧ (¬ (0x430 ≤ c.toNat ∧ c.toNat ≤ 0x44F)) ∧
      c.toNat ≠ 0x451 ∧ pyUpperChar c = c) := by
  unfold pyUpperChar
  by_cases h1 : 97 ≤ c.toNat ∧ c.toNat ≤ 122
  · left
    refine ⟨h1.1, h1.2, ?_⟩
    rw [if_pos h1, charToNat_ofNat _ (by omega)]
  · by_cases h2 : 0x430 ≤ c.toNat ∧ c.toNat ≤ 0x44F
    · right; left
      refine ⟨h2.1, h2.2, ?_⟩
      rw [if_neg h1, if_pos h2, charToNat_ofNat _ (by omega)]
    · by_cases h3 : c.toNat = 0x451
      · right; right; left
        refine ⟨h3, ?_⟩
        rw [if_neg h1, if_neg h2, if_pos h3, charToNat_ofNat _ (by omega)]
      · right; right; right
        refine ⟨h1, h2, h3, ?_⟩
        rw [if_neg h1, if_neg h2, if_neg h3]

theorem isPySpace_pyUpperChar (c : Char) : isPySpace (pyUpperChar c) = isPySpace c := by
  rcases pyUpperChar_toNat c with ⟨h1, h2, h3⟩ | ⟨h1, h2, h3⟩ | ⟨h1, h2⟩ | ⟨_, _, _, h⟩
  · simp only [isPySpace, h3]
    rw [Bool.eq_iff_iff]
    simp only [Bool.or_eq_true, decide_eq_true_eq]
    omega
  · simp only [isPySpace, h3]
    rw [Bool.eq_iff_iff]
    simp only [Bool.or_eq_true, decide_eq_true_eq]
    omega
  · simp only [isPySpace, h2, h1]
    rw [Bool.eq_iff_iff]
    simp only [Bool.or_eq_true, decide_eq_true_eq]
    omega
  · rw [h]

theorem pyUpperChar_comma_iff (c : Char) : pyUpperChar c = ',' ↔ c = ',' := by
  constructor
  · intro h
    rcases pyUpperChar_toNat c with ⟨h1, h2, h3⟩ | ⟨h1, h2, h3⟩ | ⟨h1, h2⟩ | ⟨_, _, _, hf⟩
    · have : (pyUpperChar c).toNat = 44 := by rw [h]; decide
      omega
    · have : (pyUpperChar c).toNat = 44 := by rw [h]; decide
      omega
    · have : (pyUpperChar c).toNat = 44 := by rw [h]; decide
      omega
    · rw [← hf]; exact h
  · intro h; rw [h]; decide

theorem pyUpperChar_idem (c : Char) : pyUpperChar (pyUpperChar c) = pyUpperChar c := by
  rcases pyUpperChar_toNat c with ⟨h1, h2, h3⟩ | ⟨h1, h2, h3⟩ | ⟨h1, h2⟩ | ⟨_, _, _, hf⟩
  · exact pyUpperChar_fix (by omega)
  · exact pyUpperChar_fix (by omega)
  · exact pyUpperChar_fix (by omega)
  · rw [hf, hf]

/-! ### List-level helper lemmas -/

theorem pyUpper_idem (l : List Char) : pyUpper (pyUpper l) = pyUpper l := by
  unfold pyUpper
  rw [List.map_map]
  exact List.map_congr_left (fun c _ => pyUpperChar_idem c)

theorem dropWhile_pyUpper (l : List Char) :
    (pyUpper l).dropWhile isPySpace = pyUpper (l.dropWhile isPySpace) := by
  unfold pyUpper
  rw [List.dropWhile_map]
  apply congrArg
  apply congrArg (fun p => List.dropWhile p l)
  funext c
  exact isPySpace_pyUpperChar c

theorem pyStrip_pyUpper (l : List Char) : pyStrip (pyUpper l) = pyUpper (pyStrip l) := by
  unfold pyStrip
  rw [dropWhile_pyUpper]
  rw [show (pyUpper (l.dropWhile isPySpace)).reverse = pyUpper (l.dropWhile isPySpace).reverse by
    unfold pyUpper; rw [List.map_reverse]]
  rw [dropWhile_pyUpper]
  unfold pyUpper
  rw [List.map_reverse]

theorem pyStrip_eq_self {l : List Char} (h1 : l.dropWhile isPySpace = l)
    (h2 : l.reverse.dropWhile isPySpace = l.reverse) : pyStrip l = l := by
  unfold pyStrip
  rw [h1, h2, List.reverse_reverse]

theorem pyStrip_eq_self_of_all {l : List Char} (h : ∀ c ∈ l, isPySpace c = false) :
    pyStrip l = l := by
  apply pyStrip_eq_self
  · rw [List.dropWhile_eq_self_iff]
    intro hl
    rw [h _ (List.get_mem l 0 hl)]
    exact Bool.false_ne_true
  · rw [List.dropWhile_eq_self_iff]
    intro hl
    rw [h _ (List.mem_reverse.mp (List.get_mem l.reverse 0 hl))]
    exact Bool.false_ne_true

theorem pyStrip_parts {l : List Char} (h : pyStrip l = l) :
    l.dropWhile isPySpace = l ∧ l.reverse.dropWhile isPySpace = l.reverse := by
  have hlen1 : (l.dropWhile isPySpace).length ≤ l.length := by
    have := List.dropWhile_sublist (l := l) (p := isPySpace)
    exact this.length_le
  have hsub2 := List.dropWhile_sublist (l := (l.dropWhile isPySpace).reverse) (p := isPySpace)
  have hlen2 : ((l.dropWhile isPySpace).reverse.dropWhile isPySpace).length ≤
      (l.dropWhile isPySpace).length := by
    have := hsub2.length_le
    simpa using this
  have hplen : (pyStrip l).length = l.length := by rw [h]
  have hplen2 : (pyStrip l).length =
      ((l.dropWhile isPySpace).reverse.dropWhile isPySpace).length := by
    unfold pyStrip
    rw [List.length_reverse]
  have he1 : (l.dropWhile isPySpace).length = l.length := by omega
  have hd1 : l.dropWhile isPySpace = l :=
    (List.dropWhile_sublist (l := l) (p := isPySpace)).eq_of_length he1
  refine ⟨hd1, ?_⟩
  have : pyStrip l = (l.reverse.dropWhile isPySpace).reverse := by
    unfold pyStrip
    rw [hd1]
  rw [h] at this
  rw [← List.reverse_reverse (l.reverse.dropWhile isPySpace), ← this]

theorem splitOnComma_cons (c : Char) (rest : List Char) :
    splitOnComma (c :: rest) =
      match splitOnComma rest with
      | [] => [[]]
      | h :: t => if c = ',' then [] :: h :: t else (c :: h) :: t := rfl

theorem splitOnComma_ne_nil (l : List Char) : splitOnComma l ≠ [] := by
  cases l with
  | nil => simp [splitOnComma]
  | cons c rest =>
    rw [splitOnComma_cons]
    cases hr : splitOnComma rest with
    | nil => simp
    | cons h t =>
      by_cases hc : c = ','
      · simp [hc]
      · simp [hc]

theorem splitOnComma_no_comma {l : List Char} (h : ',' ∉ l) : splitOnComma l = [l] := by
  induction l with
  | nil => rfl
  | cons c rest ih =>
    have hc : ¬ (c = ',') := fun e => h (e ▸ List.mem_cons_self c rest)
    have hr : ',' ∉ rest := fun m => h (List.mem_cons_of_mem _ m)
    rw [splitOnComma_cons, ih hr]
    simp [hc]

theorem splitOnComma_append {a b : List Char} (h : ',' ∉ a) :
    splitOnComma (a ++ ',' :: b) = a :: splitOnComma b := by
  induction a with
  | nil =>
    simp only [List.nil_append]
    rw [splitOnComma_cons]
    cases hb : splitOnComma b with
    | nil => exact absurd hb (splitOnComma_ne_nil b)
    | cons hh tt => simp
  | cons c r ih =>
    have hc : ¬ (c = ',') := fun e => h (e ▸ List.mem_cons_self c r)
    have hr : ',' ∉ r := fun m => h (List.mem_cons_of_mem _ m)
    simp only [List.cons_append]
    rw [splitOnComma_cons, ih hr]
    simp [hc]

theorem splitOnComma_pyUpper (l : List Char) :
    splitOnComma (pyUpper l) = (splitOnComma l).map pyUpper := by
  induction l with
  | nil => rfl
  | cons c rest ih =>
    show splitOnComma (pyUpperChar c :: pyUpper rest) = _
    rw [splitOnComma_cons, ih, splitOnComma_cons]
    cases hr : splitOnComma rest with
    | nil => exact absurd hr (splitOnComma_ne_nil rest)
    | cons hh tt =>
      by_cases hc : c = ','
      · subst hc
        simp only [List.map_cons]
        rw [if_pos (by decide : pyUpperChar ',' = ',')]
        simp [pyUpper]
      · have hu : ¬ (pyUpperChar c = ',') := fun e => hc ((pyUpperChar_comma_iff c).mp e)
        simp only [List.map_cons]
        rw [if_neg hu, if_neg hc]
        rfl

/-! ### C1 / C3: house inputs without leading digits, and the `ВСЕ` rule -/

/-- C3 (amended): for every NON-EMPTY house input, the rule `ВСЕ` matches.
(The code returns `False` outright when the house input is the empty
string, before the `ВСЕ` check.) -/
theorem house_in_range_vse (h : String) (hne : h.data ≠ []) :
    house_in_range h "ВСЕ" = true := by
  unfold house_in_range
  rw [if_neg]
  · show (if pyUpper (pyStrip "ВСЕ".data) = "ВСЕ".data then true else _) = true
    rw [if_pos (by decide)]
  · intro hc
    rcases hc with hc | hc
    · exact hne hc
    · exact absurd hc (by decide)

/-- C3 witness: a concrete non-empty house input matched by `ВСЕ`. -/
theorem house_in_range_vse_witness : house_in_range "Д" "ВСЕ" = true :=
  house_in_range_vse "Д" (by decide)

/-- C3 counterexample: contrary to the claim, the empty house input is NOT
matched by the rule `ВСЕ` (the code checks `if not house` first). -/
theorem house_in_range_vse_empty : house_in_range "" "ВСЕ" = false := by decide

/-- C1 (amended): when the trimmed upper-cased house input has no leading
digit run, `house_in_range` returns true ONLY when the whole rule trims and
upper-cases to `ВСЕ`; in particular an exact literal clause equal to the
house input does NOT match (the code returns `False` as soon as the digit
extraction fails, before the clause loop). -/
theorem house_in_range_no_digits (h r : String) (hne : h.data ≠ [])
    (hnd : (pyUpper (pyStrip h.data)).takeWhile isDigitChar = []) :
    house_in_range h r = true ↔ (r.data ≠ [] ∧ pyUpper (pyStrip r.data) = "ВСЕ".data) := by
  unfold house_in_range
  by_cases hc : h.data = [] ∨ r.data = []
  · rw [if_pos hc]
    rcases hc with hc | hc
    · exact absurd hc hne
    · simp [hc]
  · rw [if_neg hc]
    push_neg at hc
    by_cases hv : pyUpper (pyStrip r.data) = "ВСЕ".data
    · show (if pyUpper (pyStrip r.data) = "ВСЕ".data then true else _) = true ↔ _
      rw [if_pos hv]
      simp [hv, hc.2]
    · show (if pyUpper (pyStrip r.data) = "ВСЕ".data then true else _) = true ↔ _
      rw [if_neg hv]
      show (if (pyUpper (pyStrip h.data)).takeWhile isDigitChar = [] then false else _) = true ↔ _
      rw [if_pos hnd]
      simp [hv]

/-- C1 witness: house `А` (no digits) with a whitespace-padded `все` rule
still matches through the `ВСЕ` branch. -/
theorem house_in_range_no_digits_witness : house_in_range "А" " все " = true :=
  (house_in_range_no_digits "А" " все " (by decide) (by decide)).mpr ⟨by decide, by decide⟩

/-- C1 counterexample: the rule list contains a clause exactly equal to the
trimmed upper-cased house input `А`, yet evaluation returns false, because
a house input without leading digits short-circuits before literal
clauses are tried. -/
theorem house_in_range_no_digits_literal : house_in_range "А" "А" = false := by decide

/-! ### C4: semantics of the range-clause language -/

/-- The comma-joined form of a clause list, as it appears in a rule string. -/
def joinCommaSep : List (List Char) → List Char
  | [] => []
  | [c] => c
  | c :: rest => c ++ ',' :: joinCommaSep rest

theorem joinCommaSep_cons₂ (c d : List Char) (rest : List (List Char)) :
    joinCommaSep (c :: d :: rest) = c ++ ',' :: joinCommaSep (d :: rest) := rfl

theorem takeWhile_all_append {p : Char → Bool} {l r : List Char}
    (h : ∀ c ∈ l, p c = true) : (l ++ r).takeWhile p = l ++ r.takeWhile p := by
  rw [List.takeWhile_append]
  rw [List.takeWhile_eq_self_iff.mpr h]
  simp

theorem dropWhile_all_append {p : Char → Bool} {l r : List Char}
    (h : ∀ c ∈ l, p c = true) : (l ++ r).dropWhile p = r.dropWhile p := by
  rw [List.dropWhile_append]
  rw [List.dropWhile_eq_nil_iff.mpr h]
  simp

theorem dropWhile_fix_append {p : Char → Bool} {l r : List Char}
    (hl : l.dropWhile p = l) (hne : l ≠ []) : (l ++ r).dropWhile p = l ++ r := by
  rw [List.dropWhile_append, hl]
  simp [hne]

theorem digit_not_space {c : Char} (h : isDigitChar c = true) : isPySpace c = false := by
  simp only [isDigitChar, Bool.and_eq_true, decide_eq_true_eq] at h
  simp only [isPySpace, Bool.or_eq_false_iff, decide_eq_false_iff_not]
  omega

theorem digit_ne_comma {c : Char} (h : isDigitChar c = true) : c ≠ ',' := by
  simp only [isDigitChar, Bool.and_eq_true, decide_eq_true_eq] at h
  intro e
  have : c.toNat = 44 := by rw [e]; decide
  omega

/-- Reduction of `house_in_range` to the clause loop, in the main case. -/
theorem house_in_range_eval (h r : String) (hne : h.data ≠ []) (hrne : r.data ≠ [])
    (hrv : pyUpper (pyStrip r.data) ≠ "ВСЕ".data)
    (hrun : (pyUpper (pyStrip h.data)).takeWhile isDigitChar ≠ []) :
    house_in_range h r =
      ((splitOnComma (pyUpper (pyStrip r.data))).map (fun p => pyUpper (pyStrip p))).any
        (fun part =>
          clauseMatches (natOfDigits ((pyUpper (pyStrip h.data)).takeWhile isDigitChar))
            (pyUpper (pyStrip h.data)) part) := by
  unfold house_in_range
  rw [if_neg]
  · show (if pyUpper (pyStrip r.data) = "ВСЕ".data then true else _) = _
    rw [if_neg hrv]
    show (if (pyUpper (pyStrip h.data)).takeWhile isDigitChar = [] then false else _) = _
    rw [if_neg hrun]
  · intro hc
    rcases hc with hc | hc
    · exact hne hc
    · exact hrne hc

theorem parseParityRange_cons_ne {c : Char} (l : List Char) (h : c ≠ '(') :
    parseParityRange (c :: l) = none := by
  unfold parseParityRange
  split
  · next heq => rw [List.cons.injEq] at heq; exact absurd heq.1 h
  · rfl

theorem parseParityRange_mk (s e : List Char) (hs : s ≠ []) (he : e ≠ [])
    (hsd : ∀ c ∈ s, isDigitChar c = true) (hed : ∀ c ∈ e, isDigitChar c = true) :
    parseParityRange ('(' :: (s ++ '-' :: (e ++ [')']))) =
      some (natOfDigits s, natOfDigits e) := by
  show (let ds := (s ++ '-' :: (e ++ [')'])).takeWhile isDigitChar
        let rest2 := (s ++ '-' :: (e ++ [')'])).dropWhile isDigitChar
        if ds = [] then none
        else
          match rest2 with
          | '-' :: rest3 =>
            let es := rest3.takeWhile isDigitChar
            let rest4 := rest3.dropWhile isDigitChar
            if es = [] then none
            else
              match rest4 with
              | ')' :: _ => some (natOfDigits ds, natOfDigits es)
              | _ => none
          | _ => none) = some (natOfDigits s, natOfDigits e)
  have h1 : (s ++ '-' :: (e ++ [')'])).takeWhile isDigitChar = s := by
    rw [takeWhile_all_append hsd]
    simp [List.takeWhile_cons, show isDigitChar '-' = false from rfl]
  have h2 : (s ++ '-' :: (e ++ [')'])).dropWhile isDigitChar = '-' :: (e ++ [')']) := by
    rw [dropWhile_all_append hsd]
    simp [List.dropWhile_cons, show isDigitChar '-' = false from rfl]
  have h3 : (e ++ [')']).takeWhile isDigitChar = e := by
    rw [takeWhile_all_append hed]
    simp [List.takeWhile_cons, show isDigitChar ')' = false from rfl]
  have h4 : (e ++ [')']).dropWhile isDigitChar = [')'] := by
    rw [dropWhile_all_append hed]
    simp [List.dropWhile_cons, show isDigitChar ')' = false from rfl]
  simp only [h1, h2, h3, h4]
  rw [if_neg hs, if_neg he]

theorem parsePlainRange_mk (s e : List Char) (hs : s ≠ []) (he : e ≠ [])
    (hsd : ∀ c ∈ s, isDigitChar c = true) (hed : ∀ c ∈ e, isDigitChar c = true) :
    parsePlainRange (s ++ '-' :: e) = some (natOfDigits s, natOfDigits e) := by
  show (let ds := (s ++ '-' :: e).takeWhile isDigitChar
        let rest := (s ++ '-' :: e).dropWhile isDigitChar
        if ds = [] then none
        else
          match rest with
          | '-' :: rest2 =>
            let es := rest2.takeWhile isDigitChar
            let rest3 := rest2.dropWhile isDigitChar
            if es = [] then none
            else
              match rest3 with
              | [] => some (natOfDigits ds, natOfDigits es)
              | _ => none
          | _ => none) = some (natOfDigits s, natOfDigits e)
  have h1 : (s ++ '-' :: e).takeWhile isDigitChar = s := by
    rw [takeWhile_all_append hsd]
    simp [List.takeWhile_cons, show isDigitChar '-' = false from rfl]
  have h2 : (s ++ '-' :: e).dropWhile isDigitChar = '-' :: e := by
    rw [dropWhile_all_append hsd]
    simp [List.dropWhile_cons, show isDigitChar '-' = false from rfl]
  have h3 : e.takeWhile isDigitChar = e := List.takeWhile_eq_self_iff.mpr hed
  have h4 : e.dropWhile isDigitChar = [] := List.dropWhile_eq_nil_iff.mpr hed
  simp only [h1, h2, h3, h4]
  rw [if_neg hs, if_neg he]

theorem pyUpper_fix_of {l : List Char} (h : ∀ c ∈ l, pyUpperChar c = c) : pyUpper l = l := by
  unfold pyUpper
  rw [List.map_congr_left h]
  exact List.map_id l

theorem joinCommaSep_ne_nil {cs : List (List Char)} (hcs : cs ≠ [])
    (h : ∀ c ∈ cs, c ≠ []) : joinCommaSep cs ≠ [] := by
  cases cs with
  | nil => exact absurd rfl hcs
  | cons c rest =>
    cases rest with
    | nil => exact h c (List.mem_cons_self c [])
    | cons d rest2 =>
      rw [joinCommaSep_cons₂]
      simp

theorem splitOnComma_join {cs : List (List Char)} (hcs : cs ≠ [])
    (h : ∀ c ∈ cs, ',' ∉ c) : splitOnComma (joinCommaSep cs) = cs := by
  induction cs with
  | nil => exact absurd rfl hcs
  | cons c rest ih =>
    cases rest with
    | nil => exact splitOnComma_no_comma (h c (List.mem_cons_self c []))
    | cons d rest2 =>
      rw [joinCommaSep_cons₂, splitOnComma_append (h c (List.mem_cons_self c _))]
      rw [ih (List.cons_ne_nil d rest2) (fun x hx => h x (List.mem_cons_of_mem _ hx))]

theorem join_dropWhile {cs : List (List Char)} (hcs : cs ≠ [])
    (hne : ∀ c ∈ cs, c ≠ []) (hfix : ∀ c ∈ cs, pyStrip c = c) :
    (joinCommaSep cs).dropWhile isPySpace = joinCommaSep cs := by
  cases cs with
  | nil => exact absurd rfl hcs
  | cons c rest =>
    have hc := pyStrip_parts (hfix c (List.mem_cons_self c rest))
    cases rest with
    | nil => exact hc.1
    | cons d rest2 =>
      rw [joinCommaSep_cons₂]
      exact dropWhile_fix_append hc.1 (hne c (List.mem_cons_self c _))

theorem join_reverse_dropWhile {cs : List (List Char)} (hcs : cs ≠ [])
    (hne : ∀ c ∈ cs, c ≠ []) (hfix : ∀ c ∈ cs, pyStrip c = c) :
    (joinCommaSep cs).reverse.dropWhile isPySpace = (joinCommaSep cs).reverse := by
  induction cs with
  | nil => exact absurd rfl hcs
  | cons c rest ih =>
    have hc := pyStrip_parts (hfix c (List.mem_cons_self c rest))
    cases rest with
    | nil => exact hc.2
    | cons d rest2 =>
      rw [joinCommaSep_cons₂, List.reverse_append, List.reverse_cons, List.append_assoc]
      apply dropWhile_fix_append
      · exact ih (List.cons_ne_nil d rest2) (fun x hx => hne x (List.mem_cons_of_mem _ hx))
          (fun x hx => hfix x (List.mem_cons_of_mem _ hx))
      · simp only [ne_eq, List.reverse_eq_nil_iff]
        exact joinCommaSep_ne_nil (List.cons_ne_nil d rest2)
          (fun x hx => hne x (List.mem_cons_of_mem _ hx))

theorem pyStrip_join {cs : List (List Char)} (hcs : cs ≠ [])
    (hne : ∀ c ∈ cs, c ≠ []) (hfix : ∀ c ∈ cs, pyStrip c = c) :
    pyStrip (joinCommaSep cs) = joinCommaSep cs :=
  pyStrip_eq_self (join_dropWhile hcs hne hfix) (join_reverse_dropWhile hcs hne hfix)

theorem join_ne_vse {cs : List (List Char)} (hcs : cs ≠ [])
    (hclauses : ∀ c ∈ cs, c ≠ [] ∧ ',' ∉ c ∧ pyStrip c = c ∧ pyUpper c ≠ "ВСЕ".data) :
    pyUpper (pyStrip (joinCommaSep cs)) ≠ "ВСЕ".data := by
  rw [pyStrip_join hcs (fun c hc => (hclauses c hc).1) (fun c hc => (hclauses c hc).2.2.1)]
  cases cs with
  | nil => exact absurd rfl hcs
  | cons c rest =>
    cases rest with
    | nil => exact (hclauses c (List.mem_cons_self c [])).2.2.2
    | cons d rest2 =>
      intro heq
      have hmem : ',' ∈ joinCommaSep (c :: d :: rest2) := by
        rw [joinCommaSep_cons₂]
        exact List.mem_append_right _ (List.mem_cons_self _ _)
      have hmem2 : ',' ∈ pyUpper (joinCommaSep (c :: d :: rest2)) := by
        unfold pyUpper
        exact List.mem_map.mpr ⟨',', hmem, by decide⟩
      rw [heq] at hmem2
      exact absurd hmem2 (by decide)

/-- Evaluation of `house_in_range` on a single comma-free clause. -/
theorem house_in_range_single (h : String) (c : List Char) (hne : h.data ≠ [])
    (hc : c ≠ []) (hcomma : ',' ∉ c) (hfix : pyStrip c = c)
    (hvse : pyUpper c ≠ "ВСЕ".data)
    (hrun : (pyUpper (pyStrip h.data)).takeWhile isDigitChar ≠ []) :
    house_in_range h ⟨c⟩ =
      clauseMatches (natOfDigits ((pyUpper (pyStrip h.data)).takeWhile isDigitChar))
        (pyUpper (pyStrip h.data)) (pyUpper c) := by
  rw [house_in_range_eval h ⟨c⟩ hne hc (by show pyUpper (pyStrip c) ≠ _; rw [hfix]; exact hvse) hrun]
  show ((splitOnComma (pyUpper (pyStrip c))).map (fun p => pyUpper (pyStrip p))).any _ = _
  rw [hfix, splitOnComma_pyUpper, splitOnComma_no_comma hcomma]
  simp only [List.map_cons, List.map_nil, List.any_cons, List.any_nil, Bool.or_false]
  rw [pyStrip_pyUpper, hfix, pyUpper_idem]

theorem digit_ne_lparen {c : Char} (h : isDigitChar c = true) : c ≠ '(' := by
  simp only [isDigitChar, Bool.and_eq_true, decide_eq_true_eq] at h
  intro e
  have : c.toNat = 40 := by rw [e]; decide
  omega

theorem digit_ne_ve {c : Char} (h : isDigitChar c = true) : c ≠ 'В' := by
  simp only [isDigitChar, Bool.and_eq_true, decide_eq_true_eq] at h
  intro e
  have : c.toNat = 0x412 := by rw [e]; decide
  omega

/-- C4: the clause language of `house_in_range`.  For a house input whose
trimmed upper-cased form has the non-empty leading digit run `ds`:
a parenthesised clause `(start-end)` matches iff the house number lies in
the inclusive range and has the parity of `start`; a bare `start-end`
clause matches iff the house number lies in the range, parity ignored;
and a comma-separated rule matches iff at least one of its clauses does. -/
theorem house_in_range_clause_semantics (h : String) (ds : List Char)
    (hne : h.data ≠ [])
    (hds : (pyUpper (pyStrip h.data)).takeWhile isDigitChar = ds)
    (hdsne : ds ≠ []) :
    (∀ s e : List Char, s ≠ [] → e ≠ [] → (∀ c ∈ s, isDigitChar c = true) →
      (∀ c ∈ e, isDigitChar c = true) →
      (house_in_range h ⟨'(' :: (s ++ '-' :: (e ++ [')']))⟩ = true ↔
        (natOfDigits s ≤ natOfDigits ds ∧ natOfDigits ds ≤ natOfDigits e ∧
          natOfDigits ds % 2 = natOfDigits s % 2)))
    ∧ (∀ s e : List Char, s ≠ [] → e ≠ [] → (∀ c ∈ s, isDigitChar c = true) →
      (∀ c ∈ e, isDigitChar c = true) →
      (house_in_range h ⟨s ++ '-' :: e⟩ = true ↔
        (natOfDigits s ≤ natOfDigits ds ∧ natOfDigits ds ≤ natOfDigits e)))
    ∧ (∀ cs : List (List Char), cs ≠ [] →
      (∀ c ∈ cs, c ≠ [] ∧ ',' ∉ c ∧ pyStrip c = c ∧ pyUpper c ≠ "ВСЕ".data) →
      (house_in_range h ⟨joinCommaSep cs⟩ = true ↔
        ∃ c ∈ cs, house_in_range h ⟨c⟩ = true)) := by
  have hrun : (pyUpper (pyStrip h.data)).takeWhile isDigitChar ≠ [] := by
    rw [hds]; exact hdsne
  refine ⟨?_, ?_, ?_⟩
  · intro s e hsne hene hsd hed
    have hnospace : ∀ ch ∈ ('(' :: (s ++ '-' :: (e ++ [')']))), isPySpace ch = false := by
      intro ch hch
      simp only [List.mem_cons, List.mem_append, List.mem_singleton, List.not_mem_nil, or_false] at hch
      rcases hch with rfl | hs2 | rfl | he2 | rfl
      · decide
      · exact digit_not_space (hsd _ hs2)
      · decide
      · exact digit_not_space (hed _ he2)
      · decide
    have hnocomma : ',' ∉ ('(' :: (s ++ '-' :: (e ++ [')']))) := by
      intro hmem
      simp only [List.mem_cons, List.mem_append, List.mem_singleton, List.not_mem_nil, or_false] at hmem
      rcases hmem with heq | hs2 | heq | he2 | heq
      · exact absurd heq (by decide)
      · exact digit_ne_comma (hsd _ hs2) rfl
      · exact absurd heq (by decide)
      · exact digit_ne_comma (hed _ he2) rfl
      · exact absurd heq (by decide)
    have hupper : pyUpper ('(' :: (s ++ '-' :: (e ++ [')']))) =
        ('(' :: (s ++ '-' :: (e ++ [')']))) := by
      apply pyUpper_fix_of
      intro ch hch
      simp only [List.mem_cons, List.mem_append, List.mem_singleton, List.not_mem_nil, or_false] at hch
      rcases hch with rfl | hs2 | rfl | he2 | rfl
      · decide
      · exact pyUpperChar_digit (hsd _ hs2)
      · decide
      · exact pyUpperChar_digit (hed _ he2)
      · decide
    have hvse : pyUpper ('(' :: (s ++ '-' :: (e ++ [')']))) ≠ "ВСЕ".data := by
      rw [hupper]
      intro heq
      injection heq with h1 h2
      exact absurd h1 (by decide)
    rw [house_in_range_single h _ hne (List.cons_ne_nil _ _) hnocomma
      (pyStrip_eq_self_of_all hnospace) hvse hrun]
    rw [hds, hupper]
    simp only [clauseMatches, parseParityRange_mk s e hsne hene hsd hed]
    simp only [Bool.and_eq_true, decide_eq_true_eq, beq_iff_eq]
    tauto
  · intro s e hsne hene hsd hed
    have hnospace : ∀ ch ∈ (s ++ '-' :: e), isPySpace ch = false := by
      intro ch hch
      simp only [List.mem_cons, List.mem_append] at hch
      rcases hch with hs2 | rfl | he2
      · exact digit_not_space (hsd _ hs2)
      · decide
      · exact digit_not_space (hed _ he2)
    have hnocomma : ',' ∉ (s ++ '-' :: e) := by
      intro hmem
      simp only [List.mem_cons, List.mem_append] at hmem
      rcases hmem with hs2 | heq | he2
      · exact digit_ne_comma (hsd _ hs2) rfl
      · exact absurd heq (by decide)
      · exact digit_ne_comma (hed _ he2) rfl
    have hupper : pyUpper (s ++ '-' :: e) = (s ++ '-' :: e) := by
      apply pyUpper_fix_of
      intro ch hch
      simp only [List.mem_cons, List.mem_append] at hch
      rcases hch with hs2 | rfl | he2
      · exact pyUpperChar_digit (hsd _ hs2)
      · decide
      · exact pyUpperChar_digit (hed _ he2)
    cases s with
    | nil => exact absurd rfl hsne
    | cons c0 s0 =>
      have hvse : pyUpper ((c0 :: s0) ++ '-' :: e) ≠ "ВСЕ".data := by
        rw [hupper]
        intro heq
        rw [List.cons_append] at heq
        injection heq with h1 h2
        exact digit_ne_ve (hsd c0 (List.mem_cons_self c0 s0)) h1
      have hpnone : parseParityRange ((c0 :: s0) ++ '-' :: e) = none := by
        rw [List.cons_append]
        exact parseParityRange_cons_ne _ (digit_ne_lparen (hsd c0 (List.mem_cons_self c0 s0)))
      rw [house_in_range_single h _ hne (by simp) hnocomma
        (pyStrip_eq_self_of_all hnospace) hvse hrun]
      rw [hds, hupper]
      simp only [clauseMatches, hpnone, parsePlainRange_mk (c0 :: s0) e hsne hene hsd hed]
      simp only [Bool.and_eq_true, decide_eq_true_eq]
  · intro cs hcs hclauses
    have hne2 : ∀ c ∈ cs, c ≠ [] := fun c hc => (hclauses c hc).1
    have hcomma2 : ∀ c ∈ cs, ',' ∉ c := fun c hc => (hclauses c hc).2.1
    have hfix2 : ∀ c ∈ cs, pyStrip c = c := fun c hc => (hclauses c hc).2.2.1
    rw [house_in_range_eval h _ hne (joinCommaSep_ne_nil hcs hne2)
      (join_ne_vse hcs hclauses) hrun]
    show (((splitOnComma (pyUpper (pyStrip (joinCommaSep cs)))).map
      (fun p => pyUpper (pyStrip p))).any _) = true ↔ _
    rw [pyStrip_join hcs hne2 hfix2, splitOnComma_pyUpper, splitOnComma_join hcs hcomma2]
    rw [List.map_map, List.any_map, List.any_eq_true]
    apply exists_congr
    intro c
    apply and_congr_right
    intro hmem
    rw [house_in_range_single h c hne (hne2 c hmem) (hcomma2 c hmem) (hfix2 c hmem)
      ((hclauses c hmem).2.2.2) hrun]
    rw [hds]
    show clauseMatches _ _ (pyUpper (pyStrip (pyUpper c))) = true ↔ _
    rw [pyStrip_pyUpper, hfix2 c hmem, pyUpper_idem]

/-- C4 witness: the three clause forms evaluated at concrete inputs
through the semantics theorem (house 12 in the even range (10-20);
house 15 in the plain range 10-20; house 3 against the rule "1-2,3-4"). -/
theorem house_in_range_clause_semantics_witness :
    house_in_range "12" ⟨'(' :: (['1', '0'] ++ '-' :: (['2', '0'] ++ [')']))⟩ = true ∧
    house_in_range "15" ⟨['1', '0'] ++ '-' :: ['2', '0']⟩ = true ∧
    house_in_range "3" ⟨joinCommaSep [['1', '-', '2'], ['3', '-', '4']]⟩ = true := by
  refine ⟨?_, ?_, ?_⟩
  · exact ((house_in_range_clause_semantics "12" ['1', '2'] (by decide) (by decide)
      (by decide)).1 ['1', '0'] ['2', '0'] (by decide) (by decide) (by decide)
      (by decide)).mpr (by decide)
  · exact ((house_in_range_clause_semantics "15" ['1', '5'] (by decide) (by decide)
      (by decide)).2.1 ['1', '0'] ['2', '0'] (by decide) (by decide) (by decide)
      (by decide)).mpr (by decide)
  · exact ((house_in_range_clause_semantics "3" ['3'] (by decide) (by decide)
      (by decide)).2.2 [['1', '-', '2'], ['3', '-', '4']] (by decide)
      (by decide)).mpr ⟨['3', '-', '4'], by decide, by decide⟩

/-! ### C8: AddressParsingService.map_region -/

/-- The one-position match attempt of `re.sub(r"\s*(область|обл\.?)\s*", " ", ...)`
(case-insensitive): a greedy whitespace run, then the branch `область`, or
the branch `обл` with an optional greedy dot, then a greedy trailing
whitespace run.  Returns the remainder of the text after the match.
Greediness is exact because neither branch starts with whitespace and the
trailing run cannot consume a dot. -/
def regionMatchAt (l : List Char) : Option (List Char) :=
  let rest := l.dropWhile isPySpace
  if "область".data.isPrefixOf (pyLower rest) then
    some ((rest.drop 7).dropWhile isPySpace)
  else if "обл".data.isPrefixOf (pyLower rest) then
    match rest.drop 3 with
    | '.' :: rest3 => some (rest3.dropWhile isPySpace)
    | rest2 => some (rest2.dropWhile isPySpace)
  else none

theorem regionMatchAt_length {l rem : List Char} (h : regionMatchAt l = some rem) :
    rem.length < l.length := by
  unfold regionMatchAt at h
  have hrest : (l.dropWhile isPySpace).length ≤ l.length :=
    (List.dropWhile_sublist (p := isPySpace) (l := l)).length_le
  by_cases h1 : "область".data.isPrefixOf (pyLower (l.dropWhile isPySpace))
  · rw [if_pos h1] at h
    simp only [Option.some.injEq] at h
    subst h
    have hlen : 7 ≤ (l.dropWhile isPySpace).length := by
      have h2 := (List.isPrefixOf_iff_prefix.mp h1).length_le
      simpa [pyLower] using h2
    have h3 : (((l.dropWhile isPySpace).drop 7).dropWhile isPySpace).length ≤
        ((l.dropWhile isPySpace).drop 7).length :=
      (List.dropWhile_sublist _).length_le
    rw [List.length_drop] at h3
    omega
  · rw [if_neg h1] at h
    by_cases h2 : "обл".data.isPrefixOf (pyLower (l.dropWhile isPySpace))
    · rw [if_pos h2] at h
      have hlen : 3 ≤ (l.dropWhile isPySpace).length := by
        have h3 := (List.isPrefixOf_iff_prefix.mp h2).length_le
        simpa [pyLower] using h3
      have hdroplen : ((l.dropWhile isPySpace).drop 3).length =
          (l.dropWhile isPySpace).length - 3 := List.length_drop _ _
      cases hd : (l.dropWhile isPySpace).drop 3 with
      | nil =>
        rw [hd] at h
        simp only [Option.some.injEq] at h
        subst h
        simp only [List.dropWhile_nil, List.length_nil]
        omega
      | cons c rest3 =>
        have hlen3 : rest3.length + 1 = (l.dropWhile isPySpace).length - 3 := by
          rw [hd] at hdroplen
          simpa using hdroplen
        rw [hd] at h
        by_cases hc : c = '.'
        · subst hc
          simp only [Option.some.injEq] at h
          subst h
          have h4 : (rest3.dropWhile isPySpace).length ≤ rest3.length :=
            (List.dropWhile_sublist _).length_le
          omega
        · have hmatch : (match (c :: rest3 : List Char) with
              | '.' :: rest3 => some (rest3.dropWhile isPySpace)
              | rest2 => some (rest2.dropWhile isPySpace)) =
              some ((c :: rest3).dropWhile isPySpace) := by
            split
            · next heq => rw [List.cons.injEq] at heq; exact absurd heq.1 hc
            · rfl
          rw [hmatch] at h
          simp only [Option.some.injEq] at h
          subst h
          have h4 : ((c :: rest3).dropWhile isPySpace).length ≤ (c :: rest3).length :=
            (List.dropWhile_sublist _).length_le
          simp only [List.length_cons] at h4
          omega
    · rw [if_neg h2] at h
      exact absurd h (by simp)

/-- Scanner for the region substitution, fuelled for structural recursion.
By `regionMatchAt_length` a match always consumes at least one character,
so fuel equal to the text length never runs out and the fuel-exhaustion
branch (which copies the remainder verbatim) is unreachable. -/
def regionSubGo : Nat → List Char → List Char
  | _, [] => []
  | 0, l => l
  | fuel + 1, c :: rest =>
    match regionMatchAt (c :: rest) with
    | some rem => ' ' :: regionSubGo fuel rem
    | none => c :: regionSubGo fuel rest

/-- `re.sub(r"\s*(область|обл\.?)\s*", " ", text, flags=re.IGNORECASE)`:
left-to-right scan, each match replaced by one space. -/
def regionSub (l : List Char) : List Char :=
  regionSubGo l.length l

/-- The fixed region substring table, in declared (insertion) order. -/
def REGION_MAPPINGS : List (String × String) :=
  [("минск", "МИНСКАЯ"), ("брест", "БРЕСТСКАЯ"), ("витебск", "ВИТЕБСКАЯ"),
   ("гомель", "ГОМЕЛЬСКАЯ"), ("гродно", "ГРОДНЕНСКАЯ"), ("могилев", "МОГИЛЕВСКАЯ")]

/-- `AddressParsingService.map_region`: empty input maps to `None`; the
words `область`/`обл.` are stripped (replaced by a space, then the string
is stripped); the first table key that is a substring of the lower-cased
cleaned string decides the canonical code; otherwise `None`. -/
def map_region (region_raw : String) : Option String :=
  if region_raw.data = [] then none
  else
    let region_clean := pyStrip (regionSub region_raw.data)
    (REGION_MAPPINGS.find? (fun kv => decide (kv.1.data <:+: pyLower region_clean))).map
      (fun kv => kv.2)

/-- C8 counterexample: `ГРОДНЕНСКАЯ` is one of the six canonical region
codes, yet mapping it returns `None` — the table key `гродно` is not a
substring of `гродненская`, so idempotence fails for this code. -/
theorem map_region_grodno : map_region "ГРОДНЕНСКАЯ" = none := by decide

/-- C8 (amended): region mapping is idempotent on five of the six
canonical codes (`ГРОДНЕНСКАЯ` maps to `None` instead), and for every raw
string in which, after the `область`/`обл.` stripping, no region key
occurs as a case-insensitive substring, the result is `None`. -/
theorem map_region_props :
    (map_region "МИНСКАЯ" = some "МИНСКАЯ" ∧
     map_region "БРЕСТСКАЯ" = some "БРЕСТСКАЯ" ∧
     map_region "ВИТЕБСКАЯ" = some "ВИТЕБСКАЯ" ∧
     map_region "ГОМЕЛЬСКАЯ" = some "ГОМЕЛЬСКАЯ" ∧
     map_region "МОГИЛЕВСКАЯ" = some "МОГИЛЕВСКАЯ") ∧
    map_region "ГРОДНЕНСКАЯ" = none ∧
    (∀ s : String,
      (∀ kv ∈ REGION_MAPPINGS, ¬ (kv.1.data <:+: pyLower (pyStrip (regionSub s.data)))) →
      map_region s = none) := by
  refine ⟨⟨by decide, by decide, by decide, by decide, by decide⟩, by decide, ?_⟩
  intro s hkeys
  unfold map_region
  by_cases hs : s.data = []
  · rw [if_pos hs]
  · rw [if_neg hs]
    have hf : (REGION_MAPPINGS.find?
        (fun kv => decide (kv.1.data <:+: pyLower (pyStrip (regionSub s.data))))) = none := by
      rw [List.find?_eq_none]
      intro kv hkv
      simp only [decide_eq_true_eq]
      exact hkeys kv hkv
    show (Option.map (fun kv => kv.2) (REGION_MAPPINGS.find?
      (fun kv => decide (kv.1.data <:+: pyLower (pyStrip (regionSub s.data)))))) = none
    rw [hf]
    rfl

/-- C8 witness: a concrete raw string with no region key inside maps to
`None` via the general part of the statement. -/
theorem map_region_props_witness : map_region "зябровка" = none :=
  map_region_props.2.2 "зябровка" (by decide)

/-! ### C10: AddressProcessor.build_address -/

/-- Python truthiness of an optional string (`None` and `""` are falsy). -/
def pyTruthy (o : Option String) : Bool :=
  match o with
  | none => false
  | some s => !(s.data = [] : Bool)

/-- Python f-string rendering of an optional string: `None` prints as the
literal text `None`. -/
def fStr (o : Option String) : String :=
  match o with
  | none => "None"
  | some s => s

/-- The `value.lower().capitalize()` normalisation used by `build_address`. -/
def capStr (s : String) : String :=
  ⟨pyCapitalize (pyLower s.data)⟩

/-- `sep.join(parts)` at the character level. -/
def joinWith (sep : List Char) : List (List Char) → List Char
  | [] => []
  | [p] => p
  | p :: rest => p ++ sep ++ joinWith sep rest

/-- `AddressProcessor.build_address` (src/core/address_processor.py): the
universal address constructor.  Every part is appended under its Python
truthiness / sentinel condition; `spec_mode=False` joins with `", "`,
`spec_mode=True` joins with a space and lower-cases the result. -/
def build_address (region district sovet city_type city_name street_type street_name
    building : Option String) (spec_mode : Bool) : String :=
  let parts : List String :=
    (if pyTruthy region && !(region == some "НЕТ") then
      [capStr (fStr region) ++ " область"] else []) ++
    (if pyTruthy district then [capStr (fStr district) ++ " район"] else []) ++
    (if pyTruthy sovet then [capStr (fStr sovet) ++ " сельсовет"] else []) ++
    (if pyTruthy city_name && !(city_type == some "НЕТ") then
      (if pyTruthy city_type then [fStr city_type ++ " " ++ capStr (fStr city_name)]
       else [capStr (fStr city_name)]) else []) ++
    (if pyTruthy street_name then
      (if street_type == some "ДРУГОЕ" then [capStr (fStr street_name)]
       else if !(street_type == some "НЕТ") then
        [fStr street_type ++ " " ++ capStr (fStr street_name)]
       else []) else []) ++
    (if pyTruthy building then [fStr building] else [])
  if spec_mode then ⟨pyLower (joinWith " ".data (parts.map String.data))⟩
  else ⟨joinWith ", ".data (parts.map String.data)⟩

/-- The case split of `pyLowerChar` in a `toNat`-friendly form. -/
theorem pyLowerChar_toNat (c : Char) :
    (65 ≤ c.toNat ∧ c.toNat ≤ 90 ∧ (pyLowerChar c).toNat = c.toNat + 32) ∨
    (0x410 ≤ c.toNat ∧ c.toNat ≤ 0x42F ∧ (pyLowerChar c).toNat = c.toNat + 0x20) ∨
    (c.toNat = 0x401 ∧ (pyLowerChar c).toNat = 0x451) ∨
    ((¬ (65 ≤ c.toNat ∧ c.toNat ≤ 90)) ∧ (¬ (0x410 ≤ c.toNat ∧ c.toNat ≤ 0x42F)) ∧
      c.toNat ≠ 0x401 ∧ pyLowerChar c = c) := by
  unfold pyLowerChar
  by_cases h1 : 65 ≤ c.toNat ∧ c.toNat ≤ 90
  · left
    refine ⟨h1.1, h1.2, ?_⟩
    rw [if_pos h1, charToNat_ofNat _ (by omega)]
  · by_cases h2 : 0x410 ≤ c.toNat ∧ c.toNat ≤ 0x42F
    · right; left
      refine ⟨h2.1, h2.2, ?_⟩
      rw [if_neg h1, if_pos h2, charToNat_ofNat _ (by omega)]
    · by_cases h3 : c.toNat = 0x401
      · right; right; left
        refine ⟨h3, ?_⟩
        rw [if_neg h1, if_neg h2, if_pos h3, charToNat_ofNat _ (by omega)]
      · right; right; right
        refine ⟨h1, h2, h3, ?_⟩
        rw [if_neg h1, if_neg h2, if_neg h3]

theorem pyLowerChar_fix {c : Char}
    (h : ¬ (65 ≤ c.toNat ∧ c.toNat ≤ 90) ∧ ¬ (0x410 ≤ c.toNat ∧ c.toNat ≤ 0x42F) ∧
      c.toNat ≠ 0x401) : pyLowerChar c = c := by
  unfold pyLowerChar
  rw [if_neg h.1, if_neg h.2.1, if_neg h.2.2]

theorem pyLowerChar_eq_of_toNat {c d : Char} (h : c.toNat = d.toNat) :
    pyLowerChar c = pyLowerChar d := by
  rw [charEq_of_toNat h]

theorem pyLowerChar_pyUpperChar (c : Char) : pyLowerChar (pyUpperChar c) = pyLowerChar c := by
  rcases pyUpperChar_toNat c with ⟨h1, h2, h3⟩ | ⟨h1, h2, h3⟩ | ⟨h1, h2⟩ | ⟨_, _, _, hf⟩
  · rcases pyLowerChar_toNat (pyUpperChar c) with ⟨g1, g2, g3⟩ | ⟨g1, g2, g3⟩ | ⟨g1, g2⟩ |
      ⟨g1, g2, g3, _⟩
    · have hcfix : pyLowerChar c = c := pyLowerChar_fix (by omega)
      rw [hcfix]
      exact charEq_of_toNat (by omega)
    · omega
    · omega
    · omega
  · rcases pyLowerChar_toNat (pyUpperChar c) with ⟨g1, g2, g3⟩ | ⟨g1, g2, g3⟩ | ⟨g1, g2⟩ |
      ⟨g1, g2, g3, _⟩
    · omega
    · have hcfix : pyLowerChar c = c := pyLowerChar_fix (by omega)
      rw [hcfix]
      exact charEq_of_toNat (by omega)
    · omega
    · omega
  · rcases pyLowerChar_toNat (pyUpperChar c) with ⟨g1, g2, g3⟩ | ⟨g1, g2, g3⟩ | ⟨g1, g2⟩ |
      ⟨g1, g2, g3, _⟩
    · omega
    · omega
    · have hcfix : pyLowerChar c = c := pyLowerChar_fix (by omega)
      rw [hcfix]
      exact charEq_of_toNat (by omega)
    · omega
  · rw [hf]

theorem pyLowerChar_idem (c : Char) : pyLowerChar (pyLowerChar c) = pyLowerChar c := by
  rcases pyLowerChar_toNat c with ⟨h1, h2, h3⟩ | ⟨h1, h2, h3⟩ | ⟨h1, h2⟩ | ⟨_, _, _, hf⟩
  · exact pyLowerChar_fix (by omega)
  · exact pyLowerChar_fix (by omega)
  · exact pyLowerChar_fix (by omega)
  · rw [hf, hf]

theorem pyLower_idem (l : List Char) : pyLower (pyLower l) = pyLower l := by
  unfold pyLower
  rw [List.map_map]
  exact List.map_congr_left (fun c _ => pyLowerChar_idem c)

theorem pyLower_pyCapitalize_pyLower (l : List Char) :
    pyLower (pyCapitalize (pyLower l)) = pyLower l := by
  cases l with
  | nil => rfl
  | cons c r =>
    show pyLower (pyUpperChar (pyLowerChar c) :: pyLower (pyLower r)) = _
    show pyLowerChar (pyUpperChar (pyLowerChar c)) :: pyLower (pyLower (pyLower r)) = _
    rw [pyLowerChar_pyUpperChar, pyLowerChar_idem, pyLower_idem, pyLower_idem]
    rfl

theorem mem_joinWith_between {sep p : List Char} {parts : List (List Char)}
    (h : p ∈ parts) : p <:+: joinWith sep parts := by
  induction parts with
  | nil => cases h
  | cons q rest ih =>
    rcases List.mem_cons.mp h with rfl | hmem
    · cases rest with
      | nil => exact List.infix_rfl
      | cons r rest2 =>
        show p <:+: (p ++ sep) ++ joinWith sep (r :: rest2)
        have h2 : p <+: (p ++ sep) ++ joinWith sep (r :: rest2) := by
          rw [List.append_assoc]
          exact List.prefix_append p _
        exact h2.isInfix
    · cases rest with
      | nil => cases hmem
      | cons r rest2 =>
        have hsuf : joinWith sep (r :: rest2) <:+ (q ++ sep) ++ joinWith sep (r :: rest2) :=
          List.suffix_append (q ++ sep) (joinWith sep (r :: rest2))
        exact (ih hmem).trans hsuf.isInfix

/-- C10: when a non-empty street name is supplied with a NULL (unclassified)
street type — not one of the sentinel strings `НЕТ`/`ДРУГОЕ` — the composed
address contains the literal text `None` prepended to the capitalised
street name; in matching (`spec_mode`) output it appears lower-cased as
`none`.  A null street type is not suppressed the way `НЕТ` is. -/
theorem build_address_null_street_type
    (region district sovet city_type city_name building : Option String)
    (nm : String) (hnm : nm.data ≠ []) :
    (("None ".data ++ pyCapitalize (pyLower nm.data)) <:+:
      (build_address region district sovet city_type city_name none (some nm)
        building false).data) ∧
    (("none ".data ++ pyLower nm.data) <:+:
      (build_address region district sovet city_type city_name none (some nm)
        building true).data) := by
  have hpart : ((fStr (none : Option String) ++ " " ++ capStr (fStr (some nm))) : String) ∈
      ((if pyTruthy region && !(region == some "НЕТ") then
          [capStr (fStr region) ++ " область"] else []) ++
       (if pyTruthy district then [capStr (fStr district) ++ " район"] else []) ++
       (if pyTruthy sovet then [capStr (fStr sovet) ++ " сельсовет"] else []) ++
       (if pyTruthy city_name && !(city_type == some "НЕТ") then
         (if pyTruthy city_type then [fStr city_type ++ " " ++ capStr (fStr city_name)]
          else [capStr (fStr city_name)]) else []) ++
       (if pyTruthy (some nm) then
         (if (none : Option String) == some "ДРУГОЕ" then [capStr (fStr (some nm))]
          else if !((none : Option String) == some "НЕТ") then
           [fStr (none : Option String) ++ " " ++ capStr (fStr (some nm))]
          else []) else []) ++
       (if pyTruthy building then [fStr building] else [])) := by
    apply List.mem_append_left
    apply List.mem_append_right
    have ht : pyTruthy (some nm) = true := by
      simp [pyTruthy, hnm]
    rw [ht]
    simp
  have hdata : ((fStr (none : Option String) ++ " " ++ capStr (fStr (some nm))) : String).data =
      "None ".data ++ pyCapitalize (pyLower nm.data) := by
    rw [String.data_append, String.data_append]
    rfl
  constructor
  · show _ <:+: joinWith ", ".data (List.map String.data _)
    rw [← hdata]
    exact mem_joinWith_between (List.mem_map_of_mem String.data hpart)
  · show _ <:+: pyLower (joinWith " ".data (List.map String.data _))
    have hinf := (@mem_joinWith_between " ".data _ _
      (List.mem_map_of_mem String.data hpart)).map pyLowerChar
    have heq : List.map pyLowerChar
        ((fStr (none : Option String) ++ " " ++ capStr (fStr (some nm))) : String).data =
        "none ".data ++ pyLower nm.data := by
      rw [hdata]
      show pyLower ("None ".data ++ pyCapitalize (pyLower nm.data)) = _
      unfold pyLower
      rw [List.map_append]
      show pyLower "None ".data ++ pyLower (pyCapitalize (pyLower nm.data)) = _
      rw [pyLower_pyCapitalize_pyLower]
      rfl
    rw [heq] at hinf
    exact hinf

/-- C10 witness: with street name `ленина` and a null street type, the
display output contains `None Ленина` and the matching-mode output
contains `none ленина`. -/
theorem build_address_null_street_type_witness :
    (("None ".data ++ pyCapitalize (pyLower "ленина".data)) <:+:
      (build_address none none none none none none (some "ленина") none false).data) ∧
    (("none ".data ++ pyLower "ленина".data) <:+:
      (build_address none none none none none none (some "ленина") none true).data) :=
  build_address_null_street_type none none none none none none "ленина" (by decide)

/-! ### Fuzzy-matching machinery (rapidfuzz `fuzz.ratio`,
`fuzz.token_sort_ratio`, `process.extractOne`)

`fuzz.ratio` is the normalised indel similarity
`100 * 2 * lcs(a,b) / (|a| + |b|)` (with `100` for two empty strings).
Scores are modelled as exact fractions `(numerator, denominator)` over
`Nat` instead of IEEE floats; comparisons are cross-multiplications. -/

/-- Longest common subsequence length, fuelled for structural recursion
(fuel `|a| + |b|` always suffices). -/
def lcsGo : Nat → List Char → List Char → Nat
  | _, [], _ => 0
  | _, _, [] => 0
  | 0, _, _ => 0
  | fuel + 1, a :: as, b :: bs =>
    if a = b then lcsGo fuel as bs + 1
    else max (lcsGo fuel (a :: as) bs) (lcsGo fuel as (b :: bs))

def lcsLen (a b : List Char) : Nat := lcsGo (a.length + b.length) a b

/-- `fuzz.ratio(a, b)` as the exact fraction `200·lcs/(|a|+|b|)`
(`100` when both strings are empty). -/
def fuzzScorePair (a b : List Char) : Nat × Nat :=
  if a = [] ∧ b = [] then (100, 1)
  else (200 * lcsLen a b, a.length + b.length)

/-- Strict comparison of score fractions by cross-multiplication. -/
def scoreLtB (x y : Nat × Nat) : Bool :=
  decide (x.1 * y.2 < y.1 * x.2)

/-- `score >= threshold` for an integer threshold. -/
def scoreGeThr (x : Nat × Nat) (t : Nat) : Bool :=
  decide (t * x.2 ≤ x.1)

/-- `str.split()` (whitespace runs, empties dropped), via an accumulator. -/
def splitWsAux : List Char → List Char → List (List Char)
  | acc, [] => if acc = [] then [] else [acc.reverse]
  | acc, c :: rest =>
    if isPySpace c then
      if acc = [] then splitWsAux [] rest else acc.reverse :: splitWsAux [] rest
    else splitWsAux (c :: acc) rest

def splitWs (l : List Char) : List (List Char) := splitWsAux [] l

/-- Code-point lexicographic order on character lists (Python `str` `<=`). -/
def listCharLe : List Char → List Char → Bool
  | [], _ => true
  | _ :: _, [] => false
  | a :: as, b :: bs =>
    if a.toNat < b.toNat then true
    else if b.toNat < a.toNat then false
    else listCharLe as bs

/-- Stable insertion into a sorted list: the new element goes before the
first old element it compares `le` to, so that an element earlier in the
original list wins ties. -/
def stInsert {α : Type} (le : α → α → Bool) (a : α) : List α → List α
  | [] => [a]
  | b :: bs => if le a b then a :: b :: bs else b :: stInsert le a bs

/-- Stable sort (insertion sort built by `foldr`), the model of Python's
guaranteed-stable `sorted`/`list.sort`. -/
def stSort {α : Type} (le : α → α → Bool) : List α → List α
  | [] => []
  | a :: as => stInsert le a (stSort le as)

/-- The token-sort normalisation of `fuzz.token_sort_ratio`: split on
whitespace, sort the tokens, re-join with single spaces. -/
def tokenSortKey (l : List Char) : List Char :=
  joinWith [' '] (stSort listCharLe (splitWs l))

/-- `fuzz.token_sort_ratio(a, b)` as an exact fraction. -/
def token_sort_score (a b : List Char) : Nat × Nat :=
  fuzzScorePair (tokenSortKey a) (tokenSortKey b)

/-- `process.extractOne(query, choices, scorer=...)`: the first choice with
the strictly greatest score (later choices replace the best only when
strictly better). -/
def extractOne (scorer : List Char → List Char → Nat × Nat) (query : List Char)
    (choices : List (List Char)) : Option (List Char × (Nat × Nat)) :=
  choices.foldl
    (fun best c =>
      match best with
      | none => some (c, scorer query c)
      | some (b, s) =>
        let s2 := scorer query c
        if scoreLtB s s2 then some (c, s2) else some (b, s))
    none

/-- `s.split("\n")`: the reference-file content as a list of lines. -/
def splitLines : List Char → List (List Char)
  | [] => [[]]
  | c :: rest =>
    match splitLines rest with
    | [] => [[]]
    | h :: t => if c = '\n' then [] :: h :: t else (c :: h) :: t

/-- The comprehension `[line.strip().lower() for line in file if line.strip()]`. -/
def loadStreets (content : List Char) : List (List Char) :=
  ((splitLines content).filter (fun l => !(pyStrip l = [] : Bool))).map
    (fun l => pyLower (pyStrip l))

/-- `AddressParsingService.correct_street_name`
(src/core/address_parsing_service.py).  The reference file is modelled by
its optional content (`none` = `FileNotFoundError`, caught and turned into
the identity).  An empty reference list returns the input unchanged;
otherwise the token-sort-scored best match is returned, re-cased to
`lower().capitalize()`, when its score reaches the threshold, and the
input is returned unchanged when it does not. -/
def correct_street_name (file : Option String) (input_street : String)
    (threshold : Nat) : String :=
  match file with
  | none => input_street
  | some content =>
    let correct_streets := loadStreets content.data
    if correct_streets = [] then input_street
    else
      match extractOne token_sort_score (pyLower input_street.data) correct_streets with
      | none => input_street
      | some (best, score) =>
        if scoreGeThr score threshold then ⟨pyCapitalize (pyLower best)⟩
        else input_street

theorem scoreLtB_irrefl (x : Nat × Nat) : scoreLtB x x = false := by
  simp [scoreLtB]

theorem scoreLtB_trans {x y z : Nat × Nat} (hy : 0 < y.2)
    (h1 : scoreLtB x y = true) (h2 : scoreLtB y z = true) : scoreLtB x z = true := by
  simp only [scoreLtB, decide_eq_true_eq] at h1 h2 ⊢
  rcases Nat.eq_zero_or_pos x.2 with hx2 | hx2
  · rw [hx2, Nat.mul_zero] at h1
    exact absurd h1 (Nat.not_lt_zero _)
  · have big : x.1 * z.2 * y.2 < z.1 * x.2 * y.2 := by
      calc x.1 * z.2 * y.2 = (x.1 * y.2) * z.2 := by ring
        _ ≤ (y.1 * x.2) * z.2 := Nat.mul_le_mul_right _ (Nat.le_of_lt h1)
        _ = (y.1 * z.2) * x.2 := by ring
        _ < (z.1 * y.2) * x.2 := (Nat.mul_lt_mul_right hx2).mpr h2
        _ = z.1 * x.2 * y.2 := by ring
    exact Nat.lt_of_mul_lt_mul_right big

theorem scoreLt_resolve {s s0 s2 : Nat × Nat} (h0 : 0 < s0.2) (h22 : 0 < s2.2)
    (h1 : scoreLtB s s2 = true) (h2 : scoreLtB s0 s2 = false) : scoreLtB s s0 = true := by
  simp only [scoreLtB, decide_eq_true_eq, decide_eq_false_iff_not, Nat.not_lt] at h1 h2 ⊢
  have big : s.1 * s0.2 * s2.2 < s0.1 * s.2 * s2.2 := by
    calc s.1 * s0.2 * s2.2 = (s.1 * s2.2) * s0.2 := by ring
      _ < (s2.1 * s.2) * s0.2 := (Nat.mul_lt_mul_right h0).mpr h1
      _ = (s2.1 * s0.2) * s.2 := by ring
      _ ≤ (s0.1 * s2.2) * s.2 := Nat.mul_le_mul_right _ h2
      _ = s0.1 * s.2 * s2.2 := by ring
  exact Nat.lt_of_mul_lt_mul_right big

theorem extractOne_go (scorer : List Char → List Char → Nat × Nat) (q : List Char)
    (hden : ∀ c, 0 < (scorer q c).2) :
    ∀ (l : List (List Char)) (b0 : List Char),
    ∃ b s, (l.foldl (fun best c =>
        match best with
        | none => some (c, scorer q c)
        | some (b, s) =>
          let s2 := scorer q c
          if scoreLtB s s2 then some (c, s2) else some (b, s)) (some (b0, scorer q b0)))
        = some (b, s) ∧ (b = b0 ∨ b ∈ l) ∧ s = scorer q b ∧
      scoreLtB s (scorer q b0) = false ∧ (∀ c ∈ l, scoreLtB s (scorer q c) = false) := by
  intro l
  induction l with
  | nil =>
    intro b0
    exact ⟨b0, scorer q b0, rfl, Or.inl rfl, rfl, scoreLtB_irrefl _,
      fun c hc => absurd hc (List.not_mem_nil c)⟩
  | cons c cs ih =>
    intro b0
    by_cases h : scoreLtB (scorer q b0) (scorer q c) = true
    · obtain ⟨b, s, hfold, hbmem, hs, hnot, hall⟩ := ih c
      refine ⟨b, s, ?_, ?_, hs, ?_, ?_⟩
      · rw [List.foldl_cons]
        simpa [h] using hfold
      · rcases hbmem with rfl | hbmem
        · exact Or.inr (List.mem_cons_self _ _)
        · exact Or.inr (List.mem_cons_of_mem _ hbmem)
      · cases hcon : scoreLtB s (scorer q b0) with
        | false => rfl
        | true =>
          have := scoreLtB_trans (hden b0) hcon h
          rw [hnot] at this
          exact absurd this Bool.false_ne_true
      · intro x hx
        rcases List.mem_cons.mp hx with rfl | hx2
        · exact hnot
        · exact hall x hx2
    · rw [Bool.not_eq_true] at h
      obtain ⟨b, s, hfold, hbmem, hs, hnot, hall⟩ := ih b0
      refine ⟨b, s, ?_, ?_, hs, hnot, ?_⟩
      · rw [List.foldl_cons]
        simpa [h] using hfold
      · rcases hbmem with rfl | hbmem
        · exact Or.inl rfl
        · exact Or.inr (List.mem_cons_of_mem _ hbmem)
      · intro x hx
        rcases List.mem_cons.mp hx with rfl | hx2
        · cases hcon : scoreLtB s (scorer q x) with
          | false => rfl
          | true =>
            have := scoreLt_resolve (hden b0) (hden x) hcon h
            rw [hnot] at this
            exact absurd this Bool.false_ne_true
        · exact hall x hx2

theorem extractOne_spec (scorer : List Char → List Char → Nat × Nat) (q : List Char)
    (choices : List (List Char)) (hden : ∀ c, 0 < (scorer q c).2)
    (hne : choices ≠ []) :
    ∃ b s, extractOne scorer q choices = some (b, s) ∧ b ∈ choices ∧
      s = scorer q b ∧ ∀ c ∈ choices, scoreLtB s (scorer q c) = false := by
  cases choices with
  | nil => exact absurd rfl hne
  | cons c cs =>
    obtain ⟨b, s, hfold, hbmem, hs, hnot, hall⟩ := extractOne_go scorer q hden cs c
    refine ⟨b, s, hfold, ?_, hs, ?_⟩
    · rcases hbmem with rfl | hbmem
      · exact List.mem_cons_self _ _
      · exact List.mem_cons_of_mem _ hbmem
    · intro x hx
      rcases List.mem_cons.mp hx with rfl | hx2
      · exact hnot
      · exact hall x hx2

theorem fuzzScorePair_den_pos (a b : List Char) : 0 < (fuzzScorePair a b).2 := by
  unfold fuzzScorePair
  by_cases h : a = [] ∧ b = []
  · rw [if_pos h]
    exact Nat.one_pos
  · rw [if_neg h]
    show 0 < a.length + b.length
    cases a with
    | nil =>
      cases b with
      | nil => exact absurd ⟨rfl, rfl⟩ h
      | cons x xs => simp
    | cons x xs => simp

/-- C7: street correction.  With a missing reference file the input is
returned unchanged (no exception propagates); with a file that loads to an
empty list the input is returned unchanged; otherwise `extractOne` yields
the first best-scoring reference entry under the token-order-insensitive
scorer, and the output is that entry re-cased to `lower().capitalize()`
when its score reaches the threshold, or the unchanged input otherwise. -/
theorem correct_street_name_props (file : Option String) (input : String) (t : Nat) :
    (file = none → correct_street_name file input t = input) ∧
    (∀ content, file = some content → loadStreets content.data = [] →
      correct_street_name file input t = input) ∧
    (∀ content, file = some content → loadStreets content.data ≠ [] →
      ∃ best score,
        extractOne token_sort_score (pyLower input.data) (loadStreets content.data) =
          some (best, score) ∧
        best ∈ loadStreets content.data ∧
        score = token_sort_score (pyLower input.data) best ∧
        (∀ c ∈ loadStreets content.data,
          scoreLtB score (token_sort_score (pyLower input.data) c) = false) ∧
        correct_street_name file input t =
          (if scoreGeThr score t then (⟨pyCapitalize (pyLower best)⟩ : String)
           else input)) := by
  refine ⟨?_, ?_, ?_⟩
  · intro h
    subst h
    rfl
  · intro content h hempty
    subst h
    show (if loadStreets content.data = [] then input else _) = input
    rw [if_pos hempty]
  · intro content h hne
    subst h
    obtain ⟨b, s, hfold, hmem, hs, hmax⟩ := extractOne_spec token_sort_score
      (pyLower input.data) (loadStreets content.data)
      (fun c => fuzzScorePair_den_pos _ _) hne
    refine ⟨b, s, hfold, hmem, hs, hmax, ?_⟩
    show (if loadStreets content.data = [] then input else _) = _
    rw [if_neg hne, hfold]

/-- C7 witness: a one-entry reference file; the entry `у` scores 100
against the query `у`, passes the threshold 80 and is re-capitalised. -/
theorem correct_street_name_props_witness :
    correct_street_name (some "у") "у" 80 = "У" := by
  obtain ⟨b, s, hx, hmem, hscore, hmax, hout⟩ :=
    (correct_street_name_props (some "у") "у" 80).2.2 "у" rfl (by decide)
  have he : extractOne token_sort_score (pyLower "у".data) (loadStreets "у".data) =
      some ("у".data, (200, 2)) := by decide
  rw [he] at hx
  simp only [Option.some.injEq, Prod.mk.injEq] at hx
  rw [hout, ← hx.1, ← hx.2]
  decide

/-! ### C2: AddressProcessor.process_results — filtering, scoring, ranking

Similarity scores are exact fractions with a positive denominator (the
float values of `rapidfuzz` are `100·2·lcs/(|a|+|b|)`, whose comparisons
the exact fractions reproduce).  The two pandas/Python sorts are stable in
the source — Python's `list.sort` by specification (also under
`reverse=True`), and the `sort_values(ascending=False)` pre-sort through
pandas' double-reversal `nargsort` over numpy's insertion sort on frames
below 16 rows (the lookup source caps batches at 10) — and are modelled by
`List.insertionSort` with a ≥-relation, which is exactly the stable
descending sort. -/

/-- An exact similarity score: numerator over positive denominator. -/
abbrev Score := {p : Nat × Nat // 0 < p.2}

/-- The `0.0` default score of rows that were never scored. -/
def scoreZero : Score := ⟨(0, 1), Nat.one_pos⟩

/-- `fuzz.ratio` as a `Score`. -/
def fuzzScore (a b : List Char) : Score :=
  ⟨fuzzScorePair a b, fuzzScorePair_den_pos a b⟩

/-- Strict `<` on scores. -/
def sLt (x y : Score) : Bool := scoreLtB x.1 y.1

/-- Equality of score fractions (cross-multiplied). -/
def sEqB (x y : Score) : Bool := decide (x.1.1 * y.1.2 = y.1.1 * x.1.2)

theorem sLt_asymm {x y : Score} (h : sLt x y = true) : sLt y x = false := by
  simp only [sLt, scoreLtB, decide_eq_true_eq, decide_eq_false_iff_not, Nat.not_lt] at h ⊢
  exact Nat.le_of_lt h

theorem sGe_trans {x y z : Score} (h1 : sLt x y = false) (h2 : sLt y z = false) :
    sLt x z = false := by
  simp only [sLt, scoreLtB, decide_eq_false_iff_not, Nat.not_lt] at h1 h2 ⊢
  -- h1 : y.1 * x.2 ≤ x.1 * y.2 ; h2 : z.1 * y.2 ≤ y.1 * z.2 ; ⊢ z.1 * x.2 ≤ x.1 * z.2
  have hy := y.2
  have big : z.1.1 * x.1.2 * y.1.2 ≤ x.1.1 * z.1.2 * y.1.2 := by
    calc z.1.1 * x.1.2 * y.1.2 = (z.1.1 * y.1.2) * x.1.2 := by ring
      _ ≤ (y.1.1 * z.1.2) * x.1.2 := Nat.mul_le_mul_right _ h2
      _ = (y.1.1 * x.1.2) * z.1.2 := by ring
      _ ≤ (x.1.1 * y.1.2) * z.1.2 := Nat.mul_le_mul_right _ h1
      _ = x.1.1 * z.1.2 * y.1.2 := by ring
  exact Nat.le_of_mul_le_mul_right big hy

theorem sEqB_of_sEqB {x y r : Score} (hx : sEqB x r = true) (hy : sEqB y r = true) :
    sEqB x y = true := by
  simp only [sEqB, decide_eq_true_eq] at hx hy ⊢
  -- hx : x.1 * r.2 = r.1 * x.2 ; hy : y.1 * r.2 = r.1 * y.2 ; ⊢ x.1 * y.2 = y.1 * x.2
  have hr := r.2
  have big : x.1.1 * y.1.2 * r.1.2 = y.1.1 * x.1.2 * r.1.2 := by
    calc x.1.1 * y.1.2 * r.1.2 = (x.1.1 * r.1.2) * y.1.2 := by ring
      _ = (r.1.1 * x.1.2) * y.1.2 := by rw [hx]
      _ = (r.1.1 * y.1.2) * x.1.2 := by ring
      _ = (y.1.1 * r.1.2) * x.1.2 := by rw [← hy]
      _ = y.1.1 * x.1.2 * r.1.2 := by ring
  exact Nat.eq_of_mul_eq_mul_right hr big

theorem sLt_false_of_sEqB {x y : Score} (h : sEqB x y = true) :
    sLt x y = false ∧ sLt y x = false := by
  simp only [sEqB, decide_eq_true_eq] at h
  simp only [sLt, scoreLtB, decide_eq_false_iff_not, Nat.not_lt]
  omega

/-- One raw result row (the six DataFrame columns). -/
structure RawRow where
  postal_code : String
  region : String
  district : String
  city : String
  street : String
  house_numbers : String
deriving DecidableEq, Repr

/-- `models/search_result.py` `SearchResult`. -/
structure SearchResult where
  postal_code : String
  region : String
  district : String
  city : String
  street : String
  house_numbers : String
  similarity_score : Score
  house_match : Bool
deriving DecidableEq

/-- `Series.str.contains(pattern, case=False)` for the plain-text patterns
the program passes (the pandas call interprets the pattern as a regex; for
the region/district/city words used here that is substring containment,
which is how it is modelled). -/
def containsCI (pattern text : String) : Bool :=
  decide (pyLower pattern.data <:+: pyLower text.data)

/-- `AddressProcessor.filter_addresses`: the conjunction of the four
optional masks, applied in the declared order (a conjunction of boolean
masks is order-independent; sequential filtering preserves row order). -/
def filter_addresses (df : List RawRow) (region district sovet city : String) :
    List RawRow :=
  let df1 := if region.data ≠ [] ∧ region ≠ "НЕТ" then
      df.filter (fun r => containsCI region r.region) else df
  let df2 := if district.data ≠ [] then
      df1.filter (fun r => containsCI district r.district) else df1
  let df3 := if city.data ≠ [] then
      df2.filter (fun r => containsCI city r.city) else df2
  if sovet.data ≠ [] then
    df3.filter (fun r => containsCI sovet r.city || containsCI sovet r.district)
  else df3

/-- Rows annotated with their street-similarity score, in frame order. -/
def scoredRows (df : List RawRow) (target : String) : List (RawRow × Score) :=
  df.map (fun r => (r, fuzzScore (pyLower r.street.data) (pyLower target.data)))

/-- The ≥-by-score relation: the pre-sort's stable descending order. -/
def rowGe (p q : RawRow × Score) : Prop := sLt p.2 q.2 = false

instance : DecidableRel rowGe := fun p q => instDecidableEqBool _ _

instance : IsTotal (RawRow × Score) rowGe where
  total p q := by
    unfold rowGe
    cases h : sLt p.2 q.2 with
    | false => exact Or.inl rfl
    | true => exact Or.inr (sLt_asymm h)

instance : IsTrans (RawRow × Score) rowGe where
  trans p q rr h1 h2 := sGe_trans h1 h2

/-- `AddressProcessor.add_similarity_scores`: annotate with `fuzz.ratio`
scores and sort by score descending (stable). -/
def add_similarity_scores (df : List RawRow) (target : String) : List (RawRow × Score) :=
  List.insertionSort rowGe (scoredRows df target)

/-- The composite ranking key comparison, `(houseMatch, similarityScore)`
compared lexicographically, strictly ascending. -/
def keyLtB (a b : SearchResult) : Bool :=
  (!a.house_match && b.house_match) ||
  (a.house_match == b.house_match && sLt a.similarity_score b.similarity_score)

/-- Equality of ranking keys. -/
def keyEqB (a b : SearchResult) : Bool :=
  (a.house_match == b.house_match) && sEqB a.similarity_score b.similarity_score

/-- The ≥-by-key relation: the final sort's stable descending order,
Python `results.sort(key=..., reverse=True)`. -/
def resultGe (a b : SearchResult) : Prop := keyLtB a b = false

instance : DecidableRel resultGe := fun a b => instDecidableEqBool _ _

theorem keyLtB_asymm {a b : SearchResult} (h : keyLtB a b = true) : keyLtB b a = false := by
  unfold keyLtB at h ⊢
  cases ha : a.house_match <;> cases hb : b.house_match <;>
    rw [ha, hb] at h <;> simp_all
  · exact sLt_asymm h
  · exact sLt_asymm h

instance : IsTotal SearchResult resultGe where
  total a b := by
    unfold resultGe
    cases h : keyLtB a b with
    | false => exact Or.inl rfl
    | true => exact Or.inr (keyLtB_asymm h)

instance : IsTrans SearchResult resultGe where
  trans a b c h1 h2 := by
    unfold resultGe keyLtB at h1 h2 ⊢
    cases ha : a.house_match <;> cases hb : b.house_match <;> cases hc : c.house_match <;>
      rw [ha, hb] at h1 <;> rw [hb, hc] at h2 <;> simp_all
    · exact sGe_trans h1 h2
    · exact sGe_trans h1 h2

/-- The conversion of one annotated row to a `SearchResult`
(`row.get("similarity_score", 0.0)` and the house-match column). -/
def toSearchResult (building : String) (p : RawRow × Option Score) : SearchResult :=
  { postal_code := p.1.postal_code, region := p.1.region, district := p.1.district,
    city := p.1.city, street := p.1.street, house_numbers := p.1.house_numbers,
    similarity_score := p.2.getD scoreZero,
    house_match := if building.data ≠ [] then house_in_range building p.1.house_numbers
      else false }

/-- The filtered frame of `process_results` (filtering applied under the
source's criteria conditions). -/
def processFiltered (raw : List RawRow)
    (region district sovet city_type city_name : String) : List RawRow :=
  if region ≠ "НЕТ" ∨ district.data ≠ [] ∨ sovet.data ≠ [] ∨
      (city_name.data ≠ [] ∧ city_type ≠ "НЕТ") then
    filter_addresses raw (if region ≠ "НЕТ" then region else "") district sovet
      (if city_type ≠ "НЕТ" then city_name else "")
  else raw

/-- The similarity target string of `process_results`. -/
def processTarget (street_type street_name : String) : String :=
  if street_name.data ≠ [] then
    (if street_type = "ДРУГОЕ" then street_name
     else if street_type ≠ "НЕТ" then street_type ++ " " ++ street_name
     else "")
  else ""

/-- `AddressProcessor.process_results`: filter, score (with the pandas
pre-sort), compute house matches, convert, rank by
`(houseMatch, similarityScore)` descending (stable) and keep the top 10. -/
def process_results (raw : List RawRow)
    (region district sovet city_type city_name street_type street_name building : String) :
    List SearchResult :=
  if raw = [] then []
  else
    let df := processFiltered raw region district sovet city_type city_name
    let target := processTarget street_type street_name
    let scored : List (RawRow × Option Score) :=
      if target.data ≠ [] then
        (add_similarity_scores df target).map (fun p => (p.1, some p.2))
      else df.map (fun r => (r, none))
    let results := scored.map (toSearchResult building)
    (List.insertionSort resultGe results).take 10

/-- The annotated rows of `process_results` in original (pre-sort) frame
order: the reference point for the stability statement. -/
def annotated_results (raw : List RawRow)
    (region district sovet city_type city_name street_type street_name building : String) :
    List SearchResult :=
  if raw = [] then []
  else
    let df := processFiltered raw region district sovet city_type city_name
    let target := processTarget street_type street_name
    let scored : List (RawRow × Option Score) :=
      if target.data ≠ [] then (scoredRows df target).map (fun p => (p.1, some p.2))
      else df.map (fun r => (r, none))
    scored.map (toSearchResult building)

/-- A stable sort leaves each class of mutually-`r`-related elements (in
particular, each equal-key class) in its original relative order. -/
theorem filter_insertionSort_stable {α : Type} (r : α → α → Prop) [DecidableRel r]
    (p : α → Bool) (l : List α) (hp : ∀ a b, p a = true → p b = true → r a b) :
    (List.insertionSort r l).filter p = l.filter p := by
  have hpair : (l.filter p).Pairwise r :=
    List.pairwise_of_forall_mem_list (fun a ha b hb =>
      hp a b (List.of_mem_filter ha) (List.of_mem_filter hb))
  have hsub : List.Sublist (l.filter p) (List.insertionSort r l) :=
    List.sublist_insertionSort hpair (List.filter_sublist l)
  have hsub2 : List.Sublist (l.filter p) ((List.insertionSort r l).filter p) := by
    have h2 := hsub.filter p
    rwa [List.filter_eq_self.mpr (fun a ha => List.of_mem_filter ha)] at h2
  have hperm : ((List.insertionSort r l).filter p).Perm (l.filter p) :=
    (List.perm_insertionSort r l).filter p
  exact (hsub2.eq_of_length hperm.length_eq.symm).symm

theorem resultGe_of_keyEqB {a b r0 : SearchResult} (ha : keyEqB a r0 = true)
    (hb : keyEqB b r0 = true) : resultGe a b := by
  simp only [keyEqB, Bool.and_eq_true, beq_iff_eq] at ha hb
  have hhm : a.house_match = b.house_match := by rw [ha.1, hb.1]
  have heq : sEqB a.similarity_score b.similarity_score = true :=
    sEqB_of_sEqB ha.2 hb.2
  have hslt := (sLt_false_of_sEqB heq).1
  unfold resultGe keyLtB
  rw [hhm, hslt]
  simp

theorem rowGe_of_keyEqB {building : String} {x y : RawRow × Score} {r0 : SearchResult}
    (hx : keyEqB (toSearchResult building (x.1, some x.2)) r0 = true)
    (hy : keyEqB (toSearchResult building (y.1, some y.2)) r0 = true) : rowGe x y := by
  simp only [keyEqB, Bool.and_eq_true, beq_iff_eq, toSearchResult] at hx hy
  have heq : sEqB x.2 y.2 = true := sEqB_of_sEqB hx.2 hy.2
  exact (sLt_false_of_sEqB heq).1

/-- C2: the result batch of `process_results` is the 10-prefix of a full
ranking `full` of ALL surviving annotated rows: `full` is a permutation of
the annotated rows (nothing is dropped before sorting), it is ordered by
the composite key `(houseMatch, similarityScore)` descending, and every
equal-key class appears in `full` in its original input-row order (the
filter equation); the returned list never exceeds 10 entries. -/
theorem process_results_ranking (raw : List RawRow)
    (region district sovet city_type city_name street_type street_name building : String) :
    ∃ full : List SearchResult,
      process_results raw region district sovet city_type city_name street_type
          street_name building = full.take 10 ∧
      full.Perm (annotated_results raw region district sovet city_type city_name
        street_type street_name building) ∧
      full.Pairwise resultGe ∧
      (∀ r0 : SearchResult,
        full.filter (fun r => keyEqB r r0) =
          (annotated_results raw region district sovet city_type city_name
            street_type street_name building).filter (fun r => keyEqB r r0)) ∧
      (process_results raw region district sovet city_type city_name street_type
          street_name building).length ≤ 10 := by
  by_cases hraw : raw = []
  · refine ⟨[], ?_, ?_, ?_, ?_, ?_⟩
    · show (if raw = [] then [] else _) = List.take 10 []
      rw [if_pos hraw]
      rfl
    · show List.Perm [] (if raw = [] then [] else _)
      rw [if_pos hraw]
    · exact List.Pairwise.nil
    · intro r0
      show _ = List.filter _ (if raw = [] then [] else _)
      rw [if_pos hraw]
    · show (if raw = [] then [] else _).length ≤ 10
      rw [if_pos hraw]
      simp
  · have hann : annotated_results raw region district sovet city_type city_name
        street_type street_name building =
        (if (processTarget street_type street_name).data ≠ [] then
          (scoredRows (processFiltered raw region district sovet city_type city_name)
            (processTarget street_type street_name)).map (fun p => (p.1, some p.2))
        else (processFiltered raw region district sovet city_type city_name).map
          (fun r => (r, none))).map (toSearchResult building) := by
      show (if raw = [] then [] else _) = _
      rw [if_neg hraw]
    refine ⟨List.insertionSort resultGe
      ((if (processTarget street_type street_name).data ≠ [] then
          (add_similarity_scores
            (processFiltered raw region district sovet city_type city_name)
            (processTarget street_type street_name)).map (fun p => (p.1, some p.2))
        else (processFiltered raw region district sovet city_type city_name).map
          (fun r => (r, none))).map (toSearchResult building)), ?_, ?_, ?_, ?_, ?_⟩
    · show (if raw = [] then [] else _) = _
      rw [if_neg hraw]
    · rw [hann]
      refine (List.perm_insertionSort resultGe _).trans ?_
      by_cases htg : (processTarget street_type street_name).data ≠ []
      · rw [if_pos htg, if_pos htg]
        exact ((List.perm_insertionSort rowGe _).map _).map _
      · rw [if_neg htg, if_neg htg]
    · exact List.sorted_insertionSort resultGe _
    · intro r0
      rw [hann]
      rw [filter_insertionSort_stable resultGe _ _
        (fun a b ha hb => resultGe_of_keyEqB ha hb)]
      by_cases htg : (processTarget street_type street_name).data ≠ []
      · rw [if_pos htg, if_pos htg]
        rw [List.map_map, List.map_map, List.filter_map, List.filter_map]
        apply congrArg
        show List.filter _ (List.insertionSort rowGe _) = _
        exact filter_insertionSort_stable rowGe _ _
          (fun x y hx hy => @rowGe_of_keyEqB building _ _ _ hx hy)
      · rw [if_neg htg, if_neg htg]
    · show (if raw = [] then [] else _).length ≤ 10
      rw [if_neg hraw]
      show (List.take 10 _).length ≤ 10
      rw [List.length_take]
      exact Nat.min_le_left _ _

/-! ### The word-boundary regex engine

All classification/expansion patterns of `AddressParsingService` share one
shape: `(?<!\w)(alt₁|alt₂|…)(?!\w)` with `re.IGNORECASE`, where each
alternative is a literal, optionally followed by a greedy `\.?`.
Alternatives are tried left to right; the optional dot backtracks: when
the dot is present but a word character follows it, the bare literal still
matches because the dot itself satisfies the trailing `(?!\w)`.
The `after` parameter carries the character just беyond the scanned text
(used by the no-rescan segment semantics; `none` for whole-string runs). -/

structure WAlt where
  lit : List Char
  dot : Bool
deriving DecidableEq, Repr

structure WordPat where
  alts : List WAlt
deriving DecidableEq, Repr

def isWordCharOpt : Option Char → Bool
  | none => false
  | some c => isWordChar c

/-- The character at position `|l|` relative to `l`, given the context
character that follows `l`. -/
def nextCharAt (l : List Char) (after : Option Char) : Option Char :=
  match l with
  | [] => after
  | c :: _ => some c

/-- Match one alternative at the start of `l` (lookbehind already
checked), returning the number of characters consumed. -/
def altMatch (alt : WAlt) (l : List Char) (after : Option Char) : Option Nat :=
  if alt.lit.isPrefixOf (pyLower l) then
    match l.drop alt.lit.length with
    | d :: rest2 =>
      if d = '.' then
        if alt.dot then
          if isWordCharOpt (nextCharAt rest2 after) then some alt.lit.length
          else some (alt.lit.length + 1)
        else some alt.lit.length
      else if isWordCharOpt (some d) then none else some alt.lit.length
    | [] =>
      if isWordCharOpt (nextCharAt [] after) then none
      else some alt.lit.length
  else none

def firstAlt (alts : List WAlt) (l : List Char) (after : Option Char) : Option Nat :=
  match alts with
  | [] => none
  | a :: rest =>
    match altMatch a l after with
    | some n => some n
    | none => firstAlt rest l after

/-- Attempt a pattern match at the current position. -/
def patMatchAt (p : WordPat) (prev : Option Char) (l : List Char) (after : Option Char) :
    Option Nat :=
  if isWordCharOpt prev then none
  else firstAlt p.alts l after

/-- `re.sub(pattern, repl, text)` scan: left to right, replaced spans are
emitted as `repl` and scanning resumes after the span; the lookbehind
character is always the preceding ORIGINAL character.  Fuel equal to the
text length suffices because every pattern alternative consumes at least
one character. -/
def wordSubGo (p : WordPat) (repl : List Char) :
    Nat → Option Char → List Char → Option Char → List Char
  | _, _, [], _ => []
  | 0, _, l, _ => l
  | fuel + 1, prev, c :: rest, after =>
    match patMatchAt p prev (c :: rest) after with
    | some n => repl ++ wordSubGo p repl fuel ((c :: rest)[n - 1]?) ((c :: rest).drop n) after
    | none => c :: wordSubGo p repl fuel (some c) rest after

def wordSub (p : WordPat) (repl : List Char) (l : List Char) : List Char :=
  wordSubGo p repl l.length none l none

/-- `re.search(pattern, text)` as a boolean. -/
def wordSearchGo (p : WordPat) : Option Char → List Char → Bool
  | _, [] => false
  | prev, c :: rest =>
    match patMatchAt p prev (c :: rest) none with
    | some _ => true
    | none => wordSearchGo p (some c) rest

def wordSearch (p : WordPat) (l : List Char) : Bool :=
  wordSearchGo p none l

def mkAlt (s : String) (d : Bool) : WAlt := ⟨s.data, d⟩

def pat1 (s : String) (d : Bool) : WordPat := ⟨[mkAlt s d]⟩

def pat2 (a : String) (da : Bool) (b : String) (db : Bool) : WordPat :=
  ⟨[mkAlt a da, mkAlt b db]⟩

def pat3 (a : String) (da : Bool) (b : String) (db : Bool) (c : String) (dc : Bool) :
    WordPat := ⟨[mkAlt a da, mkAlt b db, mkAlt c dc]⟩

/-- `AddressParsingService.ABBREVIATION_MAPPINGS`, in declared order. -/
def ABBREVIATION_MAPPINGS : List (WordPat × List Char) :=
  [(pat1 "г" true, "город".data),
   (pat1 "обл" true, "область".data),
   (pat1 "р-н" false, "район".data),
   (pat1 "рн" false, "район".data),
   (pat1 "аг" true, "агрогородок".data),
   (pat1 "гп" true, "городской поселок".data),
   (pat1 "п" true, "поселок".data),
   (pat1 "рп" true, "рабочий поселок".data),
   (pat1 "кп" true, "курортный поселок".data),
   (pat1 "х" true, "хутор".data),
   (pat1 "пгт" false, "поселок городского типа".data),
   (pat1 "мкр" true, "микрорайон".data),
   (pat1 "с/с" false, "сельсовет".data),
   (pat1 "с" true, "село".data),
   (pat1 "ул" true, "улица".data),
   (pat1 "пр-т" false, "проспект".data),
   (pat1 "пер" true, "переулок".data)]

/-- `AddressParsingService.preprocess_address`: sequential `re.sub` of the
abbreviation patterns over the accumulated string, in declared order. -/
def preprocess_address (address : String) : String :=
  if address.data = [] then ""
  else ⟨ABBREVIATION_MAPPINGS.foldl (fun t pr => wordSub pr.1 pr.2 t) address.data⟩

/-- `AddressParsingService.CITY_TYPE_MAPPINGS`, in declared order. -/
def CITY_TYPE_MAPPINGS : List (WordPat × String) :=
  [(pat2 "город" false "г" true, "ГОРОД"),
   (pat2 "агрогородок" false "аг" true, "АГРОГОРОДОК"),
   (pat2 "деревня" false "д" true, "ДЕРЕВНЯ"),
   (pat2 "поселок" false "п" true, "ПОСЕЛОК"),
   (pat2 "городской поселок" false "гп" true, "ГОРОДСКОЙ ПОСЕЛОК"),
   (pat2 "курортный поселок" false "кп" true, "КУРОРТНЫЙ ПОСЕЛОК"),
   (pat2 "хутор" false "х" true, "ХУТОР"),
   (pat2 "рабочий поселок" false "рп" true, "РАБОЧИЙ ПОСЕЛОК"),
   (pat2 "село" false "с" true, "СЕЛО"),
   (pat2 "сельсовет" false "с/с" false, "СЕЛЬСОВЕТ")]

/-- `AddressParsingService.STREET_TYPE_MAPPINGS`, in declared order. -/
def STREET_TYPE_MAPPINGS : List (WordPat × String) :=
  [(pat2 "улица" false "ул" true, "УЛИЦА"),
   (pat3 "проспект" false "пр-т" false "пр" true, "ПРОСПЕКТ"),
   (pat2 "переулок" false "пер" true, "ПЕРЕУЛОК"),
   (pat2 "проезд" false "пр-д" false, "ПРОЕЗД"),
   (pat1 "тракт" false, "ТРАКТ"),
   (pat2 "бульвар" false "б-р" false, "БУЛЬВАР"),
   (pat1 "тупик" false, "ТУПИК"),
   (pat2 "площадь" false "пл" true, "ПЛОЩАДЬ"),
   (pat1 "кольцо" false, "КОЛЬЦО"),
   (pat2 "набережная" false "наб" true, "НАБЕРЕЖНАЯ"),
   (pat2 "шоссе" false "ш" true, "ШОССЕ"),
   (pat2 "микрорайон" false "мкр" true, "МИКРОРАЙОН")]

/-- The six major-city names. -/
def MAJOR_CITIES : List String :=
  ["минск", "брест", "витебск", "гомель", "гродно", "могилев"]

/-- `AddressParsingService.classify_city_type`: first matching pattern in
declared order; falls back to `ГОРОД` when a major-city name occurs as a
substring; otherwise `None`. -/
def classify_city_type (city_raw : String) : Option String :=
  if city_raw.data = [] then none
  else
    match CITY_TYPE_MAPPINGS.find? (fun pr => wordSearch pr.1 city_raw.data) with
    | some pr => some pr.2
    | none =>
      if MAJOR_CITIES.any (fun c => decide (c.data <:+: pyLower city_raw.data)) then
        some "ГОРОД"
      else none

/-- `AddressParsingService.classify_street_type`. -/
def classify_street_type (street_raw : String) : Option String :=
  if street_raw.data = [] then none
  else
    match STREET_TYPE_MAPPINGS.find? (fun pr => wordSearch pr.1 street_raw.data) with
    | some pr => some pr.2
    | none => none

/-- `AddressParsingService.clean_text_from_type`: remove every occurrence
of every pattern of the table, stripping after each pattern. -/
def clean_text_from_type (text : String) (mappings : List (WordPat × String)) : String :=
  if text.data = [] then ""
  else ⟨mappings.foldl (fun t pr => pyStrip (wordSub pr.1 [] t)) text.data⟩

/-! ### AddressParsingService.extract_selsovet -/

/-- Match of `(\w+)\s+сельсовет` anchored at the current position
(case-sensitive, as in the source), returning the captured word.
The greedy `\w+`/`\s+` runs are exact because the classes are disjoint
and `сельсовет` starts with a word character. -/
def selsLeftAt (l : List Char) : Option (List Char) :=
  let w := l.takeWhile isWordChar
  if w = [] then none
  else
    let r1 := l.dropWhile isWordChar
    if r1.takeWhile isPySpace = [] then none
    else if "сельсовет".data.isPrefixOf (r1.dropWhile isPySpace) then some w
    else none

def selsLeftGo : List Char → Option (List Char)
  | [] => none
  | c :: rest =>
    match selsLeftAt (c :: rest) with
    | some w => some w
    | none => selsLeftGo rest

/-- Match of `сельсовет\s+(\w+)` anchored at the current position. -/
def selsRightAt (l : List Char) : Option (List Char) :=
  if "сельсовет".data.isPrefixOf l then
    let r1 := l.drop 9
    if r1.takeWhile isPySpace = [] then none
    else
      let w := (r1.dropWhile isPySpace).takeWhile isWordChar
      if w = [] then none else some w
  else none

def selsRightGo : List Char → Option (List Char)
  | [] => none
  | c :: rest =>
    match selsRightAt (c :: rest) with
    | some w => some w
    | none => selsRightGo rest

/-- Match of `\b{word}\s+сельсовет\b` (case-insensitive) at the current
position, returning the consumed length. -/
def selsRemLeftAt (word : List Char) (prev : Option Char) (l : List Char) : Option Nat :=
  if isWordCharOpt prev then none
  else if (pyLower word).isPrefixOf (pyLower l) then
    let r1 := l.drop word.length
    let s := r1.takeWhile isPySpace
    if s = [] then none
    else
      let r2 := r1.dropWhile isPySpace
      if "сельсовет".data.isPrefixOf (pyLower r2) then
        if isWordCharOpt (nextCharAt (r2.drop 9) none) then none
        else some (word.length + s.length + 9)
      else none
  else none

/-- Match of `\bсельсовет\s+{word}\b` (case-insensitive). -/
def selsRemRightAt (word : List Char) (prev : Option Char) (l : List Char) : Option Nat :=
  if isWordCharOpt prev then none
  else if "сельсовет".data.isPrefixOf (pyLower l) then
    let r1 := l.drop 9
    let s := r1.takeWhile isPySpace
    if s = [] then none
    else
      let r2 := r1.dropWhile isPySpace
      if (pyLower word).isPrefixOf (pyLower r2) then
        if isWordCharOpt (nextCharAt (r2.drop word.length) none) then none
        else some (9 + s.length + word.length)
      else none
  else none

/-- `re.sub` with empty replacement over a custom position matcher. -/
def remSubGo (matchAt : Option Char → List Char → Option Nat) :
    Nat → Option Char → List Char → List Char
  | _, _, [] => []
  | 0, _, l => l
  | fuel + 1, prev, c :: rest =>
    match matchAt prev (c :: rest) with
    | some n => remSubGo matchAt fuel ((c :: rest)[n - 1]?) ((c :: rest).drop n)
    | none => c :: remSubGo matchAt fuel (some c) rest

def remSub (matchAt : Option Char → List Char → Option Nat) (l : List Char) : List Char :=
  remSubGo matchAt l.length none l

/-- `re.sub(r"\s{2,}", " ", text)`: collapse runs of two or more
whitespace characters to one space. -/
def collapseWsGo : Nat → List Char → List Char
  | _, [] => []
  | 0, l => l
  | fuel + 1, c :: rest =>
    if isPySpace c then
      if ((c :: rest).takeWhile isPySpace).length ≥ 2 then
        ' ' :: collapseWsGo fuel ((c :: rest).dropWhile isPySpace)
      else c :: collapseWsGo fuel rest
    else c :: collapseWsGo fuel rest

def collapseWs (l : List Char) : List Char := collapseWsGo l.length l

/-- `AddressParsingService.extract_selsovet`: find `<word> сельсовет` or
`сельсовет <word>`, prefer the left capture unless it is the word
`район`, remove the matched pair, collapse doubled whitespace and strip.
When neither pattern matches, the input is returned verbatim (not even
whitespace-normalised). -/
def extract_selsovet (address : String) : Option String × String :=
  if address.data = [] then (none, address)
  else
    let text := address.data
    let mLeft := selsLeftGo text
    let mRight := selsRightGo text
    if mLeft = none ∧ mRight = none then (none, address)
    else
      let step1 : Option (List Char) × List Char :=
        match mLeft with
        | some w =>
          if w ≠ "район".data then (some w, remSub (selsRemLeftAt w) text)
          else (none, text)
        | none => (none, text)
      let step2 : Option (List Char) × List Char :=
        match step1.1 with
        | some _ => step1
        | none =>
          match mRight with
          | some w => (some w, remSub (selsRemRightAt w) step1.2)
          | none => step1
      (step2.1.map (fun w => (⟨w⟩ : String)), ⟨pyStrip (collapseWs step2.2)⟩)

/-! ### The orchestration: AddressParsingService.parse_full_address -/

/-- A Python dict with string keys and string-or-None values, in insertion
order. -/
abbrev PyDict := List (String × Option String)

/-- `d.get(k)` flattened: a missing key and a `None` value both read as
`none`. -/
def dictGet (d : PyDict) (k : String) : Option String :=
  match d.lookup k with
  | some v => v
  | none => none

/-- `d[k] = v`: replace in place when the key exists, append otherwise. -/
def dictSet (d : PyDict) (k : String) (v : Option String) : PyDict :=
  if (d.lookup k).isSome then d.map (fun p => if p.1 = k then (k, v) else p)
  else d ++ [(k, v)]

/-- Python `a or b` for strings. -/
def pyOrStr (a b : String) : String :=
  if a.data ≠ [] then a else b

/-- The district-word strip `re.sub(r"(?<!\w)(район|р-н|рн)\.?(?!\w)", "", ·).strip()`. -/
def districtClean (sd : String) : String :=
  ⟨pyStrip (wordSub (pat3 "район" true "р-н" true "рн" true) [] sd.data)⟩

/-- The house-word strip `re.sub(r"(?<!\w)(дом|д\.?)(?!\w)", "", ·).strip()`. -/
def houseClean (hn : String) : String :=
  ⟨pyStrip (wordSub (pat2 "дом" false "д" true) [] hn.data)⟩

/-- The environment of the service: the geocoder microservice call (which
models the whole parse stage's interaction with the outside world and may
fail — `Except.error` stands for an exception raised while producing or
consuming the response) and the content of the reference street file
(`none` = the file is missing). -/
structure Env where
  geocode : String → Except Unit (List (String × String))
  street_book_file : Option String

/-- `AddressParsingService._preprocess_and_parse_address_components`:
expand abbreviations, extract the selsovet, call the geocoder, then build
the component dict.  The source initialises all eight keys to `None` and
conditionally overwrites them; the embedding builds the same dict with
the conditions folded into the values (updates of existing keys keep
insertion order, so the two are equal). -/
def preprocess_and_parse (env : Env) (address : String) :
    Except Unit PyDict :=
  let preprocessed := preprocess_address address
  let pr := extract_selsovet preprocessed
  match env.geocode pr.2 with
  | .error e => .error e
  | .ok parsed =>
  if parsed = [] then
    .ok []
  else
    let city_raw := pyOrStr ((parsed.lookup "city").getD "") ((parsed.lookup "house").getD "")
    .ok [("selsovet", pr.1),
      ("region", match parsed.lookup "state" with
        | some st => some ((map_region st).getD st)
        | none => none),
      ("district", match parsed.lookup "state_district" with
        | some sd => some (if (districtClean sd).data ≠ [] then districtClean sd else sd)
        | none => none),
      ("city_type", if city_raw.data ≠ [] then classify_city_type city_raw else none),
      ("city_name", if city_raw.data ≠ [] then
          some (clean_text_from_type city_raw CITY_TYPE_MAPPINGS) else none),
      ("street_type", match parsed.lookup "road" with
        | some rd => classify_street_type rd
        | none => none),
      ("street_name", match parsed.lookup "road" with
        | some rd => some (clean_text_from_type rd STREET_TYPE_MAPPINGS)
        | none => none),
      ("house_number", match parsed.lookup "house_number" with
        | some hn => some (houseClean hn)
        | none => none)]

/-- `AddressParsingService._correct_street_if_needed`: render the parsed
components through `build_address` in matching mode, run the street
corrector, re-parse the corrected string, and force the ORIGINAL house
number into the result; any exception inside is caught here and yields
an empty dict. -/
def correct_street_if_needed (env : Env) (result : PyDict) : PyDict :=
  let temp := build_address (dictGet result "region") (dictGet result "district")
    (dictGet result "selsovet") (dictGet result "city_type") (dictGet result "city_name")
    (dictGet result "street_type") (dictGet result "street_name") none true
  let corrected := correct_street_name env.street_book_file temp 80
  match preprocess_and_parse env corrected with
  | .ok comps => dictSet comps "house_number" (dictGet result "house_number")
  | .error _ => []

/-- The merge loop of `parse_full_address`: non-`None` values of the
corrected re-parse override the original. -/
def mergeCorrected (result corrected : PyDict) : PyDict :=
  corrected.foldl (fun acc kv => if kv.2 ≠ none then dictSet acc kv.1 kv.2 else acc) result

/-- `AddressParsingService.parse_full_address`: empty input short-circuits
to an empty dict; an exception in the component parse is caught at this
level and yields an empty dict; otherwise the self-correction pass runs
(catching its own exceptions) and its non-`None` fields override the
original parse. -/
def parse_full_address (env : Env) (full_address : String) : PyDict :=
  if full_address.data = [] then []
  else
    match preprocess_and_parse env full_address with
    | .error _ => []
    | .ok result => mergeCorrected result (correct_street_if_needed env result)

theorem pyDict_lookup_none {d : PyDict} {k : String} (h : k ∉ d.map Prod.fst) :
    d.lookup k = none := by
  induction d with
  | nil => rfl
  | cons p t ih =>
    obtain ⟨k1, v1⟩ := p
    rw [List.map_cons, List.mem_cons] at h
    push_neg at h
    rw [List.lookup_cons]
    have hne : (k == k1) = false := by
      rw [beq_eq_false_iff_ne]
      exact h.1
    rw [hne]
    exact ih h.2

theorem lookup_map_set_self (d : PyDict) (k : String) (v : Option String)
    (h : (d.lookup k).isSome) :
    (d.map (fun p => if p.1 = k then (k, v) else p)).lookup k = some v := by
  induction d with
  | nil => simp [List.lookup] at h
  | cons p t ih =>
    obtain ⟨k1, v1⟩ := p
    by_cases hk : k1 = k
    · subst hk
      simp only [List.map_cons, if_pos rfl, ite_true, List.lookup_cons, beq_self_eq_true]
    · have hne : (k == k1) = false := by
        rw [beq_eq_false_iff_ne]
        exact fun e => hk e.symm
      rw [List.lookup_cons, hne] at h
      simp only [List.map_cons, if_neg hk, List.lookup_cons, hne]
      exact ih h

theorem lookup_append_single_self (d : PyDict) (k : String) (v : Option String)
    (h : ¬ (d.lookup k).isSome) : (d ++ [(k, v)]).lookup k = some v := by
  induction d with
  | nil => simp [List.lookup_cons]
  | cons p t ih =>
    obtain ⟨k1, v1⟩ := p
    rw [List.lookup_cons] at h
    by_cases hb : (k == k1) = true
    · rw [hb] at h
      simp at h
    · have hne : (k == k1) = false := by
        cases hc : (k == k1) with
        | false => rfl
        | true => exact absurd hc hb
      rw [hne] at h
      rw [List.cons_append, List.lookup_cons, hne]
      exact ih h

theorem lookup_dictSet_self (d : PyDict) (k : String) (v : Option String) :
    (dictSet d k v).lookup k = some v := by
  unfold dictSet
  by_cases h : (d.lookup k).isSome
  · rw [if_pos h]
    exact lookup_map_set_self d k v h
  · rw [if_neg h]
    exact lookup_append_single_self d k v h

theorem lookup_map_set_other (d : PyDict) (k : String) (v : Option String) (kk : String)
    (h : kk ≠ k) :
    (d.map (fun p => if p.1 = k then (k, v) else p)).lookup kk = d.lookup kk := by
  induction d with
  | nil => rfl
  | cons p t ih =>
    obtain ⟨k1, v1⟩ := p
    by_cases hk : k1 = k
    · subst hk
      have hne : (kk == k1) = false := by
        rw [beq_eq_false_iff_ne]
        exact h
      simp only [List.map_cons, if_pos rfl, ite_true, List.lookup_cons, hne]
      exact ih
    · simp only [List.map_cons, if_neg hk, List.lookup_cons]
      cases hb : (kk == k1) with
      | true => rfl
      | false => exact ih

theorem lookup_append_single_other (d : PyDict) (k : String) (v : Option String)
    (kk : String) (h : kk ≠ k) : (d ++ [(k, v)]).lookup kk = d.lookup kk := by
  induction d with
  | nil =>
    have hne : (kk == k) = false := by
      rw [beq_eq_false_iff_ne]
      exact h
    simp [List.lookup_cons, hne]
  | cons p t ih =>
    obtain ⟨k1, v1⟩ := p
    rw [List.cons_append, List.lookup_cons, List.lookup_cons]
    cases hb : (kk == k1) with
    | true => rfl
    | false => exact ih

theorem lookup_dictSet_other (d : PyDict) (k : String) (v : Option String) (kk : String)
    (h : kk ≠ k) : (dictSet d k v).lookup kk = d.lookup kk := by
  unfold dictSet
  by_cases hs : (d.lookup k).isSome
  · rw [if_pos hs]
    exact lookup_map_set_other d k v kk h
  · rw [if_neg hs]
    exact lookup_append_single_other d k v kk h

theorem dictSet_keys_present (d : PyDict) (k : String) (v : Option String)
    (h : (d.lookup k).isSome) : (dictSet d k v).map Prod.fst = d.map Prod.fst := by
  unfold dictSet
  rw [if_pos h, List.map_map]
  apply List.map_congr_left
  intro p _
  show ((if p.1 = k then (k, v) else p)).1 = p.1
  by_cases hk : p.1 = k
  · rw [if_pos hk, hk]
  · rw [if_neg hk]

/-- The per-key semantics of the merge loop: the last (here: unique)
non-`None` entry of `corrected` wins, otherwise the original value stays. -/
theorem mergeCorrected_get (c : PyDict) (r : PyDict)
    (hnd : (c.map Prod.fst).Nodup) (k : String) :
    dictGet (mergeCorrected r c) k =
      (match c.lookup k with
       | some (some v) => some v
       | _ => dictGet r k) := by
  induction c generalizing r with
  | nil => rfl
  | cons p t ih =>
    obtain ⟨k1, v1⟩ := p
    rw [List.map_cons, List.nodup_cons] at hnd
    have hstep : mergeCorrected r ((k1, v1) :: t) =
        mergeCorrected (if v1 ≠ none then dictSet r k1 v1 else r) t := by
      unfold mergeCorrected
      rw [List.foldl_cons]
    rw [hstep, ih _ hnd.2]
    by_cases hk : k = k1
    · subst hk
      have htl : t.lookup k = none := pyDict_lookup_none hnd.1
      rw [htl, List.lookup_cons, beq_self_eq_true]
      cases v1 with
      | none =>
        rw [if_neg (by simp)]
      | some w =>
        simp only [ne_eq, if_pos (by simp : ¬ (some w = none))]
        show dictGet (dictSet r k (some w)) k = some w
        unfold dictGet
        rw [lookup_dictSet_self]
    · have hne : (k == k1) = false := by
        rw [beq_eq_false_iff_ne]
        exact hk
      rw [List.lookup_cons, hne]
      have hbase : dictGet (if v1 ≠ none then dictSet r k1 v1 else r) k = dictGet r k := by
        cases v1 with
        | none => rfl
        | some w =>
          simp only [ne_eq, if_pos (by simp : ¬ (some w = none))]
          unfold dictGet
          rw [lookup_dictSet_other r k1 (some w) k hk]
      cases htl : t.lookup k with
      | none => exact hbase
      | some v =>
        cases v with
        | none => exact hbase
        | some w => rfl

theorem pyDict_lookup_isSome {d : PyDict} {k : String} (h : k ∈ d.map Prod.fst) :
    (d.lookup k).isSome := by
  induction d with
  | nil => simp at h
  | cons p t ih =>
    obtain ⟨k1, v1⟩ := p
    rw [List.map_cons, List.mem_cons] at h
    rw [List.lookup_cons]
    by_cases hk : k = k1
    · rw [show (k == k1) = true from beq_iff_eq.mpr hk]
      rfl
    · rw [show (k == k1) = false from beq_eq_false_iff_ne.mpr hk]
      rcases h with h | h
      · exact absurd h hk
      · exact ih h

/-- The component dict of a successful parse is either empty (geocoder
returned nothing) or carries exactly the eight fixed keys in order. -/
theorem preprocess_keys (env : Env) (a : String) (c : PyDict)
    (h : preprocess_and_parse env a = .ok c) :
    c = [] ∨ c.map Prod.fst = ["selsovet", "region", "district", "city_type",
      "city_name", "street_type", "street_name", "house_number"] := by
  simp only [preprocess_and_parse] at h
  split at h
  · exact Except.noConfusion h
  · split at h
    · exact Or.inl (Except.ok.inj h).symm
    · right
      rw [← Except.ok.inj h]
      rfl

theorem corrected_keys_nodup (env : Env) (r : PyDict) :
    ((correct_street_if_needed env r).map Prod.fst).Nodup := by
  simp only [correct_street_if_needed]
  cases hpp : preprocess_and_parse env (correct_street_name env.street_book_file
      (build_address (dictGet r "region") (dictGet r "district") (dictGet r "selsovet")
        (dictGet r "city_type") (dictGet r "city_name") (dictGet r "street_type")
        (dictGet r "street_name") none true) 80) with
  | error e => simp
  | ok comps =>
    rcases preprocess_keys env _ comps hpp with hc | hc
    · subst hc
      show ((dictSet [] "house_number" (dictGet r "house_number")).map Prod.fst).Nodup
      simp [dictSet, List.lookup]
    · have hs : (comps.lookup "house_number").isSome :=
        pyDict_lookup_isSome (by rw [hc]; simp)
      show ((dictSet comps "house_number" (dictGet r "house_number")).map Prod.fst).Nodup
      rw [dictSet_keys_present comps _ _ hs, hc]
      simp

theorem corrected_house_number (env : Env) (r : PyDict) :
    correct_street_if_needed env r = [] ∨
    (correct_street_if_needed env r).lookup "house_number" =
      some (dictGet r "house_number") := by
  simp only [correct_street_if_needed]
  cases hpp : preprocess_and_parse env (correct_street_name env.street_book_file
      (build_address (dictGet r "region") (dictGet r "district") (dictGet r "selsovet")
        (dictGet r "city_type") (dictGet r "city_name") (dictGet r "street_type")
        (dictGet r "street_name") none true) 80) with
  | error e => exact Or.inl rfl
  | ok comps => exact Or.inr (lookup_dictSet_self comps _ _)

/-- C5 (amended): the service never propagates an exception (the embedding
is a total function to a dict); empty input yields the empty dict; an
exception in the initial component parse is caught at the top level and
yields the empty dict; but an exception INSIDE the self-correction stage
is caught by that stage, and the service then returns the original parse
result unchanged — which is non-empty whenever the original parse
produced components. -/
theorem parse_full_address_failure_semantics (env : Env) (addr : String) :
    (addr.data = [] → parse_full_address env addr = []) ∧
    (∀ e : Unit, preprocess_and_parse env addr = .error e →
      parse_full_address env addr = []) ∧
    (∀ r : PyDict, addr.data ≠ [] → preprocess_and_parse env addr = .ok r →
      correct_street_if_needed env r = [] → parse_full_address env addr = r) := by
  refine ⟨?_, ?_, ?_⟩
  · intro h
    unfold parse_full_address
    rw [if_pos h]
  · intro e he
    unfold parse_full_address
    by_cases h : addr.data = []
    · rw [if_pos h]
    · rw [if_neg h, he]
  · intro r hne hok hcorr
    unfold parse_full_address
    rw [if_neg hne, hok]
    show mergeCorrected r (correct_street_if_needed env r) = r
    rw [hcorr]
    rfl

/-- The demonstration environment: the geocoder answers only the original
remainder `i` (with a street token), and throws on the corrected
round-trip string `none len`; the street reference file is missing. -/
def envFailDemo : Env :=
  ⟨fun s => if s = "i" then .ok [("road", "len")] else .error (), none⟩

/-- The component dict the demonstration parse produces. -/
def parsedDemo : PyDict :=
  [("selsovet", none), ("region", none), ("district", none), ("city_type", none),
   ("city_name", none), ("street_type", none), ("street_name", some "len"),
   ("house_number", none)]

/-- An environment whose geocoder always throws. -/
def envErrDemo : Env := ⟨fun _ => .error (), none⟩

/-- C5 counterexample: the self-correction stage's re-parse throws (the
geocoder call on the corrected string `none len` raises), the stage is
caught internally, and `parse_full_address` returns the NON-EMPTY original
parse — refuting "any stage throwing internally yields an empty mapping". -/
theorem parse_full_address_inner_throw :
    preprocess_and_parse envFailDemo "i" = .ok parsedDemo ∧
    preprocess_and_parse envFailDemo "none len" = .error () ∧
    correct_street_if_needed envFailDemo parsedDemo = [] ∧
    parse_full_address envFailDemo "i" = parsedDemo ∧
    parsedDemo ≠ [] := by
  refine ⟨rfl, rfl, by decide, by decide, by decide⟩

/-- C5 witness: empty input, a throwing initial parse, and a throwing
correction stage, each through the failure-semantics theorem. -/
theorem parse_full_address_failure_semantics_witness :
    parse_full_address envErrDemo "" = [] ∧
    parse_full_address envErrDemo "ж" = [] ∧
    parse_full_address envFailDemo "i" = parsedDemo :=
  ⟨(parse_full_address_failure_semantics envErrDemo "").1 rfl,
   (parse_full_address_failure_semantics envErrDemo "ж").2.1 () rfl,
   (parse_full_address_failure_semantics envFailDemo "i").2.2 parsedDemo (by decide)
     rfl rfl⟩

/-- C6: the self-correction merge.  Field-wise, the corrected re-parse
value overrides the original exactly when it is non-null (a null corrected
value leaves the original in place), and the house number of the final
result always equals the house number of the ORIGINAL parse — the
correction stage overwrites its own recomputed house number with the
original before merging. -/
theorem parse_full_address_merge_frame (env : Env) (addr : String) (r : PyDict)
    (hne : addr.data ≠ []) (hok : preprocess_and_parse env addr = .ok r) :
    (∀ k, dictGet (parse_full_address env addr) k =
      (match (correct_street_if_needed env r).lookup k with
       | some (some v) => some v
       | _ => dictGet r k)) ∧
    dictGet (parse_full_address env addr) "house_number" =
      dictGet r "house_number" := by
  have hpf : parse_full_address env addr =
      mergeCorrected r (correct_street_if_needed env r) := by
    unfold parse_full_address
    rw [if_neg hne, hok]
  have hmain : ∀ k, dictGet (parse_full_address env addr) k =
      (match (correct_street_if_needed env r).lookup k with
       | some (some v) => some v
       | _ => dictGet r k) := by
    intro k
    rw [hpf]
    exact mergeCorrected_get _ r (corrected_keys_nodup env r) k
  refine ⟨hmain, ?_⟩
  rw [hmain "house_number"]
  rcases corrected_house_number env r with hc | hc
  · rw [hc]
    rfl
  · rw [hc]
    cases hv : dictGet r "house_number" with
    | none => rfl
    | some w => rfl

/-- A geocoder that always returns a house-number token. -/
def envHouseDemo : Env := ⟨fun _ => .ok [("house_number", "д. 5")], none⟩

/-- The components parsed from that response (`д. 5` cleans to `5`). -/
def parsedHouseDemo : PyDict :=
  [("selsovet", none), ("region", none), ("district", none), ("city_type", none),
   ("city_name", none), ("street_type", none), ("street_name", none),
   ("house_number", some "5")]

/-- C6 witness: the final house number equals the original parse's. -/
theorem parse_full_address_merge_frame_witness :
    dictGet (parse_full_address envHouseDemo "x") "house_number" =
      dictGet parsedHouseDemo "house_number" :=
  (parse_full_address_merge_frame envHouseDemo "x" parsedHouseDemo (by decide)
    rfl).2

/-! ### C9: no-rescan semantics for the abbreviation expansion

The spec describes `preprocess_address` as a single left-to-right pass in
declared pattern order in which text produced by an earlier pattern's
replacement is never matched again by a later pattern.  We formalise that
reading directly: the working text is a list of segments, each marked as
original text (`Seg.orig`, still open to matching) or as replacement
output (`Seg.repl`, closed to matching).  Each pattern pass rewrites only
the `orig` segments; `repl` segments are copied verbatim and contribute
only boundary context (the look-behind / look-ahead characters), exactly
as the surrounding string does for any match.  The code, by contrast,
runs each `re.sub` over the whole accumulated string (`wordSub` folded in
`preprocess_address`), so later patterns do scan earlier replacement
text.  The claim is that the two coincide on every input. -/

inductive Seg where
  | orig : List Char → Seg
  | repl : List Char → Seg
deriving DecidableEq, Repr

def flatten : List Seg → List Char
  | [] => []
  | .orig u :: t => u ++ flatten t
  | .repl w :: t => w ++ flatten t

/-- The look-behind character after passing a span `u`: its last
character, or the incoming one when `u` is empty. -/
def lastPrev (u : List Char) (prev : Option Char) : Option Char :=
  match u.getLast? with
  | some c => some c
  | none => prev

def consOrig (c : Char) : List Seg → List Seg
  | .orig u :: t => .orig (c :: u) :: t
  | segs => .orig [c] :: segs

/-- Rewrite one `orig` segment under a single pattern, emitting the
match/miss structure as segments.  `after` is the first character of the
flattened remainder of the segment list (boundary context only). -/
def origSubGo (p : WordPat) (repl : List Char) :
    Nat → Option Char → List Char → Option Char → List Seg
  | _, _, [], _ => []
  | 0, _, l, _ => [.orig l]
  | fuel + 1, prev, c :: rest, after =>
    match patMatchAt p prev (c :: rest) after with
    | some n =>
      .repl repl :: origSubGo p repl fuel ((c :: rest)[n - 1]?) ((c :: rest).drop n) after
    | none => consOrig c (origSubGo p repl fuel (some c) rest after)

/-- One pattern pass over the segment list: `repl` segments are copied
(never re-scanned), `orig` segments are rewritten in place. -/
def segSub (p : WordPat) (repl : List Char) : Option Char → List Seg → List Seg
  | _, [] => []
  | prev, .repl w :: t => .repl w :: segSub p repl (lastPrev w prev) t
  | prev, .orig u :: t =>
    origSubGo p repl u.length prev u (flatten t).head? ++ segSub p repl (lastPrev u prev) t

def stepSegs (segs : List Seg) (pr : WordPat × List Char) : List Seg :=
  segSub pr.1 pr.2 none segs

/-- The spec's no-rescan reading of `preprocess_address`: fold the
patterns in declared order over the segment list, starting from the whole
input as original text. -/
def preprocess_address_norescan (address : String) : String :=
  if address.data = [] then ""
  else ⟨flatten (ABBREVIATION_MAPPINGS.foldl stepSegs [Seg.orig address.data])⟩

/-- `alt` cannot start a match at the head of `v`, no matter what text
follows `v`: either its literal fails to match there, or the character of
`v` right after the literal is a word character (so the trailing `(?!\w)`
fails) and not a dot. -/
def altOpaqueFront (alt : WAlt) (v : List Char) : Bool :=
  match v.drop alt.lit.length with
  | [] => !((pyLower v).isPrefixOf alt.lit)
  | d :: _ =>
    (!(alt.lit.isPrefixOf (pyLower v))) || (decide (d ≠ '.') && isWordChar d)

/-- Walk the suffixes of `w`: at each position either the preceding
character (tracked by `b`; the look-behind) is a word character, which
kills any match, or every alternative is blocked at that position. -/
def patOpaqueGo (p : WordPat) : Bool → List Char → Bool
  | _, [] => true
  | b, c :: w' =>
    (b || p.alts.all fun alt => altOpaqueFront alt (c :: w')) &&
      patOpaqueGo p (isWordChar c) w'

/-- No alternative of `p` can start a match anywhere inside `w`,
whatever precedes or follows `w`. -/
def patOpaque (p : WordPat) (w : List Char) : Bool := patOpaqueGo p false w

/-- No match of `alt` starting before `w` can extend into `w`: for every
proper split of the literal, the part that would have to come from `w`
either fails to match `w`'s start, or is followed inside `w` by a word
character (and not a dot), killing the trailing `(?!\w)`. -/
def crossAltOK (alt : WAlt) (w : List Char) : Bool :=
  (List.range alt.lit.length).all fun k =>
    decide (k = 0) ||
    (match w.drop (alt.lit.length - k) with
     | [] => !((pyLower w).isPrefixOf (alt.lit.drop k))
     | d :: _ =>
       (!((alt.lit.drop k).isPrefixOf (pyLower w))) || (decide (d ≠ '.') && isWordChar d))

def crossOpaque (p : WordPat) (w : List Char) : Bool :=
  p.alts.all fun alt => crossAltOK alt w

def headWordOK : List Char → Bool
  | [] => false
  | c :: _ => isWordChar c

def patWFb (p : WordPat) : Bool := p.alts.all fun alt => !alt.lit.isEmpty

def wordOKb (w : List Char) : Bool := !w.isEmpty && headWordOK w

def opaquePairB (p : WordPat) (w : List Char) : Bool := patOpaque p w && crossOpaque p w

/-- Well-formedness of a mapping list: every pattern has non-empty
literals, every replacement word is non-empty and starts with a word
character, and every replacement word is opaque for all LATER patterns. -/
def mapsWFb : List (WordPat × List Char) → Bool
  | [] => true
  | (p, w) :: t =>
    patWFb p && wordOKb w && t.all (fun q => opaquePairB q.1 w) && mapsWFb t

theorem wsg_nil (p : WordPat) (r : List Char) (f : Nat) (prev after : Option Char) :
    wordSubGo p r f prev [] after = [] := by
  cases f <;> rfl

theorem wsg_zero (p : WordPat) (r : List Char) (prev after : Option Char) (l : List Char) :
    wordSubGo p r 0 prev l after = l := by
  cases l <;> rfl

theorem wsg_cons (p : WordPat) (r : List Char) (f : Nat) (prev after : Option Char)
    (c : Char) (rest : List Char) :
    wordSubGo p r (f + 1) prev (c :: rest) after =
      match patMatchAt p prev (c :: rest) after with
      | some n =>
        r ++ wordSubGo p r f ((c :: rest)[n - 1]?) ((c :: rest).drop n) after
      | none => c :: wordSubGo p r f (some c) rest after := rfl

theorem osg_nil (p : WordPat) (r : List Char) (f : Nat) (prev after : Option Char) :
    origSubGo p r f prev [] after = [] := by
  cases f <;> rfl

theorem osg_cons (p : WordPat) (r : List Char) (f : Nat) (prev after : Option Char)
    (c : Char) (rest : List Char) :
    origSubGo p r (f + 1) prev (c :: rest) after =
      match patMatchAt p prev (c :: rest) after with
      | some n =>
        .repl r :: origSubGo p r f ((c :: rest)[n - 1]?) ((c :: rest).drop n) after
      | none => consOrig c (origSubGo p r f (some c) rest after) := rfl

theorem pyLower_length (l : List Char) : (pyLower l).length = l.length :=
  List.length_map l pyLowerChar

theorem pyLower_append (a b : List Char) : pyLower (a ++ b) = pyLower a ++ pyLower b :=
  List.map_append pyLowerChar a b

theorem pyLower_drop (l : List Char) (n : Nat) :
    (pyLower l).drop n = pyLower (l.drop n) :=
  (List.map_drop pyLowerChar l n).symm

theorem prefb_of_prefb_append (a b c : List Char) (h : a.isPrefixOf b = true) :
    a.isPrefixOf (b ++ c) = true := by
  rw [List.isPrefixOf_iff_prefix] at h ⊢
  exact h.trans (List.prefix_append b c)

theorem prefb_append_elim (a b c : List Char) (hl : a.length ≤ b.length)
    (h : a.isPrefixOf (b ++ c) = true) : a.isPrefixOf b = true := by
  rw [List.isPrefixOf_iff_prefix] at h ⊢
  rw [List.prefix_iff_eq_take] at h ⊢
  rw [List.take_append_eq_append_take, Nat.sub_eq_zero_of_le hl, List.take_zero,
    List.append_nil] at h
  exact h

theorem prefb_flip (a b c : List Char) (hl : b.length ≤ a.length)
    (h : a.isPrefixOf (b ++ c) = true) : b.isPrefixOf a = true := by
  rw [List.isPrefixOf_iff_prefix] at h ⊢
  rw [List.prefix_iff_eq_take] at h
  rw [List.take_append_eq_append_take, List.take_of_length_le hl] at h
  exact ⟨List.take (a.length - b.length) c, h.symm⟩

theorem prefb_drop (a b c : List Char) (h : a.isPrefixOf (b ++ c) = true) :
    (a.drop b.length).isPrefixOf c = true := by
  rw [List.isPrefixOf_iff_prefix] at h ⊢
  rw [List.prefix_iff_eq_take] at h
  rw [h, List.drop_take, List.drop_left]
  exact List.take_prefix _ _

theorem prefb_length (a b : List Char) (h : a.isPrefixOf b = true) :
    a.length ≤ b.length := by
  rw [List.isPrefixOf_iff_prefix] at h
  exact h.length_le

theorem altMatch_le (alt : WAlt) (l : List Char) (after : Option Char) (n : Nat)
    (h : altMatch alt l after = some n) : n ≤ l.length := by
  unfold altMatch at h
  split at h
  · rename_i hp
    have hlen : alt.lit.length ≤ l.length := by
      have := prefb_length _ _ hp
      rwa [pyLower_length] at this
    split at h
    · rename_i rest2 heq
      have hlt : alt.lit.length < l.length := by
        have hld : (l.drop alt.lit.length).length = l.length - alt.lit.length :=
          List.length_drop _ _
        rw [heq] at hld
        simp only [List.length_cons] at hld
        omega
      split at h
      · split at h
        · split at h <;> (simp only [Option.some.injEq] at h; omega)
        · simp only [Option.some.injEq] at h
          omega
      · split at h
        · exact absurd h (by simp)
        · simp only [Option.some.injEq] at h
          omega
    · split at h
      · exact absurd h (by simp)
      · simp only [Option.some.injEq] at h
        omega
  · exact absurd h (by simp)

theorem altMatch_pos (alt : WAlt) (l : List Char) (after : Option Char) (n : Nat)
    (hne : alt.lit ≠ []) (h : altMatch alt l after = some n) : 1 ≤ n := by
  have hl : 1 ≤ alt.lit.length := by
    cases hc : alt.lit with
    | nil => exact absurd hc hne
    | cons a t => simp
  unfold altMatch at h
  split at h
  · split at h
    · split at h
      · split at h
        · split at h <;> (simp only [Option.some.injEq] at h; omega)
        · simp only [Option.some.injEq] at h
          omega
      · split at h
        · exact absurd h (by simp)
        · simp only [Option.some.injEq] at h
          omega
    · split at h
      · exact absurd h (by simp)
      · simp only [Option.some.injEq] at h
        omega
  · exact absurd h (by simp)

theorem firstAlt_some (alts : List WAlt) (l : List Char) (after : Option Char) (n : Nat)
    (h : firstAlt alts l after = some n) :
    ∃ alt ∈ alts, altMatch alt l after = some n := by
  induction alts with
  | nil => exact absurd h (by simp [firstAlt])
  | cons a rest ih =>
    rw [firstAlt] at h
    cases ha : altMatch a l after with
    | some m =>
      rw [ha] at h
      simp only [Option.some.injEq] at h
      exact ⟨a, by simp, by rw [ha, h]⟩
    | none =>
      rw [ha] at h
      obtain ⟨alt, hm, he⟩ := ih h
      exact ⟨alt, by simp [hm], he⟩

theorem firstAlt_none (alts : List WAlt) (l : List Char) (after : Option Char)
    (h : ∀ alt ∈ alts, altMatch alt l after = none) : firstAlt alts l after = none := by
  induction alts with
  | nil => rfl
  | cons a rest ih =>
    rw [firstAlt, h a (by simp)]
    exact ih fun alt hm => h alt (by simp [hm])

theorem patMatchAt_le (p : WordPat) (prev : Option Char) (l : List Char)
    (after : Option Char) (n : Nat) (h : patMatchAt p prev l after = some n) :
    n ≤ l.length := by
  unfold patMatchAt at h
  split at h
  · exact absurd h (by simp)
  · obtain ⟨alt, _, he⟩ := firstAlt_some _ _ _ _ h
    exact altMatch_le _ _ _ _ he

theorem patWFb_lit_ne (p : WordPat) (hwf : patWFb p = true) (alt : WAlt)
    (hm : alt ∈ p.alts) : alt.lit ≠ [] := by
  have := (List.all_eq_true.mp hwf) alt hm
  simp only [Bool.not_eq_true'] at this
  intro hc
  rw [hc] at this
  simp at this

theorem patMatchAt_pos (p : WordPat) (hwf : patWFb p = true) (prev : Option Char)
    (l : List Char) (after : Option Char) (n : Nat)
    (h : patMatchAt p prev l after = some n) : 1 ≤ n := by
  unfold patMatchAt at h
  split at h
  · exact absurd h (by simp)
  · obtain ⟨alt, hm, he⟩ := firstAlt_some _ _ _ _ h
    exact altMatch_pos _ _ _ _ (patWFb_lit_ne p hwf alt hm) he

theorem wordSubGo_fuel (p : WordPat) (r : List Char) (hwf : patWFb p = true)
    (after : Option Char) :
    ∀ (f₁ : Nat) (f₂ : Nat) (l : List Char) (prev : Option Char),
      l.length ≤ f₁ → l.length ≤ f₂ →
      wordSubGo p r f₁ prev l after = wordSubGo p r f₂ prev l after := by
  intro f₁
  induction f₁ with
  | zero =>
    intro f₂ l prev h1 _
    have : l = [] := List.eq_nil_of_length_eq_zero (Nat.le_zero.mp h1)
    subst this
    rw [wsg_nil, wsg_nil]
  | succ f ih =>
    intro f₂ l prev h1 h2
    cases l with
    | nil => rw [wsg_nil, wsg_nil]
    | cons c rest =>
      cases f₂ with
      | zero => simp at h2
      | succ g =>
        rw [wsg_cons, wsg_cons]
        cases hm : patMatchAt p prev (c :: rest) after with
        | some n =>
          have hn1 : 1 ≤ n := patMatchAt_pos p hwf _ _ _ _ hm
          have hlen : ((c :: rest).drop n).length = (c :: rest).length - n :=
            List.length_drop _ _
          simp only [List.length_cons] at h1 h2 hlen
          refine congrArg (r ++ ·) (ih g _ _ (by omega) (by omega))
        | none =>
          simp only [List.length_cons] at h1 h2
          exact congrArg (c :: ·) (ih g rest (some c) (by omega) (by omega))

theorem origSubGo_fuel (p : WordPat) (r : List Char) (hwf : patWFb p = true)
    (after : Option Char) :
    ∀ (f₁ : Nat) (f₂ : Nat) (l : List Char) (prev : Option Char),
      l.length ≤ f₁ → l.length ≤ f₂ →
      origSubGo p r f₁ prev l after = origSubGo p r f₂ prev l after := by
  intro f₁
  induction f₁ with
  | zero =>
    intro f₂ l prev h1 _
    have : l = [] := List.eq_nil_of_length_eq_zero (Nat.le_zero.mp h1)
    subst this
    rw [osg_nil, osg_nil]
  | succ f ih =>
    intro f₂ l prev h1 h2
    cases l with
    | nil => rw [osg_nil, osg_nil]
    | cons c rest =>
      cases f₂ with
      | zero => simp at h2
      | succ g =>
        rw [osg_cons, osg_cons]
        cases hm : patMatchAt p prev (c :: rest) after with
        | some n =>
          have hn1 : 1 ≤ n := patMatchAt_pos p hwf _ _ _ _ hm
          have hlen : ((c :: rest).drop n).length = (c :: rest).length - n :=
            List.length_drop _ _
          simp only [List.length_cons] at h1 h2 hlen
          refine congrArg (Seg.repl r :: ·) (ih g _ _ (by omega) (by omega))
        | none =>
          simp only [List.length_cons] at h1 h2
          exact congrArg (consOrig c) (ih g rest (some c) (by omega) (by omega))

theorem lastPrev_nil (prev : Option Char) : lastPrev [] prev = prev := rfl

theorem lastPrev_cons (c : Char) (u : List Char) (prev : Option Char) :
    lastPrev (c :: u) prev = lastPrev u (some c) := by
  cases u with
  | nil => rfl
  | cons d u' =>
    unfold lastPrev
    rw [List.getLast?_cons_cons]
    cases hg : (d :: u').getLast? with
    | none => exact absurd hg (by simp)
    | some e => rfl

theorem lastPrev_drop (l : List Char) :
    ∀ (n : Nat) (prev : Option Char), 1 ≤ n → n ≤ l.length →
      lastPrev (l.drop n) (l[n - 1]?) = lastPrev l prev := by
  induction l with
  | nil =>
    intro n prev h1 h2
    simp at h2
    omega
  | cons c l' ih =>
    intro n prev h1 h2
    cases n with
    | zero => omega
    | succ m =>
      cases m with
      | zero =>
        show lastPrev l' ((c :: l')[0]?) = lastPrev (c :: l') prev
        rw [List.getElem?_cons_zero, lastPrev_cons]
      | succ k =>
        show lastPrev ((c :: l').drop (k + 2)) ((c :: l')[k + 1]?) = lastPrev (c :: l') prev
        rw [List.getElem?_cons_succ, lastPrev_cons]
        have : (c :: l').drop (k + 2) = l'.drop (k + 1) := rfl
        rw [this]
        have hb : k + 1 ≤ l'.length := by
          simp only [List.length_cons] at h2
          omega
        exact ih (k + 1) (some c) (by omega) hb

theorem flatten_consOrig (c : Char) (segs : List Seg) :
    flatten (consOrig c segs) = c :: flatten segs := by
  cases segs with
  | nil => rfl
  | cons s t =>
    cases s with
    | orig u => rfl
    | repl w => rfl

theorem flatten_append (a b : List Seg) :
    flatten (a ++ b) = flatten a ++ flatten b := by
  induction a with
  | nil => rfl
  | cons s t ih =>
    cases s with
    | orig u =>
      show flatten (.orig u :: (t ++ b)) = (u ++ flatten t) ++ flatten b
      rw [flatten, ih, List.append_assoc]
    | repl w =>
      show flatten (.repl w :: (t ++ b)) = (w ++ flatten t) ++ flatten b
      rw [flatten, ih, List.append_assoc]

theorem altOpaqueFront_sound (alt : WAlt) (v : List Char)
    (h : altOpaqueFront alt v = true) (s : List Char) (after : Option Char) :
    altMatch alt (v ++ s) after = none := by
  unfold altOpaqueFront at h
  unfold altMatch
  cases hd : v.drop alt.lit.length with
  | nil =>
    rw [hd] at h
    simp only [Bool.not_eq_true'] at h
    have hvl : v.length ≤ alt.lit.length := by
      have hld : (v.drop alt.lit.length).length = v.length - alt.lit.length :=
        List.length_drop _ _
      rw [hd] at hld
      simp only [List.length_nil] at hld
      omega
    rw [if_neg]
    intro hfull
    have hflip : (pyLower v).isPrefixOf alt.lit = true := by
      refine prefb_flip alt.lit (pyLower v) (pyLower s) ?_ ?_
      · rw [pyLower_length]
        exact hvl
      · rw [← pyLower_append]
        exact hfull
    rw [hflip] at h
    cases h
  | cons d rest =>
    rw [hd] at h
    have hlt : alt.lit.length < v.length := by
      have hld : (v.drop alt.lit.length).length = v.length - alt.lit.length :=
        List.length_drop _ _
      rw [hd] at hld
      simp only [List.length_cons] at hld
      omega
    have hred : (!alt.lit.isPrefixOf (pyLower v) || (decide (d ≠ '.') && isWordChar d)) =
        true := h
    rw [Bool.or_eq_true] at hred
    cases hred with
    | inl hnp =>
      simp only [Bool.not_eq_true'] at hnp
      rw [if_neg]
      intro hfull
      have := prefb_append_elim alt.lit (pyLower v) (pyLower s)
        (by rw [pyLower_length]; omega) (by rw [← pyLower_append]; exact hfull)
      rw [this] at hnp
      cases hnp
    | inr hdw =>
      rw [Bool.and_eq_true] at hdw
      obtain ⟨hdne, hw⟩ := hdw
      have hdne' : d ≠ '.' := of_decide_eq_true hdne
      by_cases hp : alt.lit.isPrefixOf (pyLower (v ++ s)) = true
      · rw [if_pos hp]
        have hdrop : (v ++ s).drop alt.lit.length = d :: (rest ++ s) := by
          rw [List.drop_append_eq_append_drop, hd,
            Nat.sub_eq_zero_of_le (Nat.le_of_lt hlt), List.drop_zero]
          rfl
        rw [hdrop]
        show (if d = '.' then
            if alt.dot = true then
              if isWordCharOpt (nextCharAt (rest ++ s) after) = true then some alt.lit.length
              else some (alt.lit.length + 1)
            else some alt.lit.length
          else if isWordCharOpt (some d) = true then none else some alt.lit.length) = none
        rw [if_neg hdne']
        rw [if_pos]
        show isWordChar d = true
        exact hw
      · rw [if_neg hp]

theorem wordSubGo_copy (p : WordPat) (r : List Char) :
    ∀ (w : List Char) (b : Bool) (prev : Option Char) (s : List Char)
      (after : Option Char) (f : Nat),
      patOpaqueGo p b w = true → (b = true → isWordCharOpt prev = true) →
      (w ++ s).length ≤ f →
      wordSubGo p r f prev (w ++ s) after =
        w ++ wordSubGo p r (f - w.length) (lastPrev w prev) s after := by
  intro w
  induction w with
  | nil =>
    intro b prev s after f _ _ _
    simp only [List.nil_append, List.length_nil, Nat.sub_zero, lastPrev_nil]
  | cons c w' ih =>
    intro b prev s after f hop hbp hf
    rw [patOpaqueGo, Bool.and_eq_true] at hop
    obtain ⟨h1, h2⟩ := hop
    cases f with
    | zero => simp at hf
    | succ g =>
      have hstep : patMatchAt p prev (c :: (w' ++ s)) after = none := by
        unfold patMatchAt
        by_cases hpv : isWordCharOpt prev = true
        · rw [if_pos hpv]
        · rw [if_neg hpv]
          have halts : p.alts.all (fun alt => altOpaqueFront alt (c :: w')) = true := by
            rw [Bool.or_eq_true] at h1
            cases h1 with
            | inl hb => exact absurd (hbp hb) hpv
            | inr ha => exact ha
          refine firstAlt_none _ _ _ fun alt hm => ?_
          exact altOpaqueFront_sound alt (c :: w') (List.all_eq_true.mp halts alt hm) s after
      have hb2 : (w' ++ s).length ≤ g := by
        simp only [List.cons_append, List.length_cons, List.length_append] at hf
        simp only [List.length_append]
        omega
      show wordSubGo p r (g + 1) prev (c :: (w' ++ s)) after = _
      rw [wsg_cons, hstep]
      rw [ih (isWordChar c) (some c) s after g h2 (fun hb => hb) hb2]
      rw [lastPrev_cons]
      show c :: (w' ++ _) = (c :: w') ++ _
      rw [List.cons_append]
      have hfu : g + 1 - (c :: w').length = g - w'.length := by
        simp only [List.length_cons]
        omega
      rw [hfu]

theorem charWord_ne_dot (c : Char) (h : isWordChar c = true) : c ≠ '.' := by
  intro he
  subst he
  exact absurd h (by decide)

theorem altMatch_boundary (alt : WAlt) (u : List Char) (hu : u ≠ [])
    (whd : Char) (wtl s : List Char) (after : Option Char)
    (hw : isWordChar whd = true) (hx : crossAltOK alt (whd :: wtl) = true) :
    altMatch alt (u ++ (whd :: (wtl ++ s))) after = altMatch alt u (some whd) := by
  by_cases hp : alt.lit.isPrefixOf (pyLower u) = true
  · have hlen : alt.lit.length ≤ u.length := by
      have := prefb_length _ _ hp
      rwa [pyLower_length] at this
    have hpfull : alt.lit.isPrefixOf (pyLower (u ++ (whd :: (wtl ++ s)))) = true := by
      rw [pyLower_append]
      exact prefb_of_prefb_append _ _ _ hp
    unfold altMatch
    rw [if_pos hp, if_pos hpfull]
    cases hdu : u.drop alt.lit.length with
    | nil =>
      have heq : u.length ≤ alt.lit.length := by
        have hld : (u.drop alt.lit.length).length = u.length - alt.lit.length :=
          List.length_drop _ _
        rw [hdu] at hld
        simp only [List.length_nil] at hld
        omega
      have hdropfull : (u ++ (whd :: (wtl ++ s))).drop alt.lit.length =
          whd :: (wtl ++ s) := by
        rw [List.drop_append_eq_append_drop, hdu,
          Nat.sub_eq_zero_of_le hlen, List.drop_zero, List.nil_append]
      rw [hdropfull]
      show (if whd = '.' then
          if alt.dot = true then
            if isWordCharOpt (nextCharAt (wtl ++ s) after) = true then some alt.lit.length
            else some (alt.lit.length + 1)
          else some alt.lit.length
        else if isWordCharOpt (some whd) = true then none else some alt.lit.length) =
        (if isWordCharOpt (nextCharAt [] (some whd)) = true then none
         else some alt.lit.length)
      rw [if_neg (charWord_ne_dot whd hw)]
      rfl
    | cons d ds =>
      have hlt : alt.lit.length < u.length := by
        have hld : (u.drop alt.lit.length).length = u.length - alt.lit.length :=
          List.length_drop _ _
        rw [hdu] at hld
        simp only [List.length_cons] at hld
        omega
      have hdropfull : (u ++ (whd :: (wtl ++ s))).drop alt.lit.length =
          d :: (ds ++ (whd :: (wtl ++ s))) := by
        rw [List.drop_append_eq_append_drop, hdu,
          Nat.sub_eq_zero_of_le (Nat.le_of_lt hlt), List.drop_zero]
        rfl
      rw [hdropfull]
      show (if d = '.' then
          if alt.dot = true then
            if isWordCharOpt (nextCharAt (ds ++ (whd :: (wtl ++ s))) after) = true then
              some alt.lit.length
            else some (alt.lit.length + 1)
          else some alt.lit.length
        else if isWordCharOpt (some d) = true then none else some alt.lit.length) =
        (if d = '.' then
          if alt.dot = true then
            if isWordCharOpt (nextCharAt ds (some whd)) = true then some alt.lit.length
            else some (alt.lit.length + 1)
          else some alt.lit.length
        else if isWordCharOpt (some d) = true then none else some alt.lit.length)
      have hnc : nextCharAt (ds ++ (whd :: (wtl ++ s))) after = nextCharAt ds (some whd) := by
        cases ds with
        | nil => rfl
        | cons e es => rfl
      rw [hnc]
  · by_cases hfull : alt.lit.isPrefixOf (pyLower (u ++ (whd :: (wtl ++ s)))) = true
    · have hul : u.length < alt.lit.length := by
        by_contra hc
        push_neg at hc
        have := prefb_append_elim alt.lit (pyLower u) (pyLower (whd :: (wtl ++ s)))
          (by rw [pyLower_length]; omega) (by rw [← pyLower_append]; exact hfull)
        exact hp this
      have hk1 : 1 ≤ u.length := by
        cases hcu : u with
        | nil => exact absurd hcu hu
        | cons a b => simp
      have hk := List.all_eq_true.mp hx u.length (List.mem_range.mpr hul)
      have hkne : decide (u.length = 0) = false := by
        apply decide_eq_false
        omega
      rw [hkne, Bool.false_or] at hk
      have hdropP : (alt.lit.drop u.length).isPrefixOf
          (pyLower (whd :: wtl) ++ pyLower s) = true := by
        have h1 := prefb_drop alt.lit (pyLower u) (pyLower (whd :: (wtl ++ s)))
          (by rw [← pyLower_append]; exact hfull)
        rw [pyLower_length] at h1
        have h2 : pyLower (whd :: (wtl ++ s)) = pyLower (whd :: wtl) ++ pyLower s := by
          rw [← pyLower_append]
          rfl
        rwa [h2] at h1
      unfold altMatch
      rw [if_neg hp, if_pos hfull]
      cases hwd : (whd :: wtl).drop (alt.lit.length - u.length) with
      | nil =>
        exfalso
        rw [hwd] at hk
        have hk2 : (!(pyLower (whd :: wtl)).isPrefixOf (alt.lit.drop u.length)) = true := hk
        simp only [Bool.not_eq_true'] at hk2
        have hwlen : (whd :: wtl).length ≤ alt.lit.length - u.length := by
          have hld : ((whd :: wtl).drop (alt.lit.length - u.length)).length =
              (whd :: wtl).length - (alt.lit.length - u.length) := List.length_drop _ _
          rw [hwd] at hld
          simp only [List.length_nil] at hld
          omega
        have hflip := prefb_flip (alt.lit.drop u.length) (pyLower (whd :: wtl)) (pyLower s)
          (by rw [pyLower_length]; simp only [List.length_drop]; omega) hdropP
        rw [hflip] at hk2
        cases hk2
      | cons d ds =>
        rw [hwd] at hk
        have hk2 : ((!(alt.lit.drop u.length).isPrefixOf (pyLower (whd :: wtl))) ||
            (decide (d ≠ '.') && isWordChar d)) = true := hk
        have hwlt : alt.lit.length - u.length < (whd :: wtl).length := by
          have hld : ((whd :: wtl).drop (alt.lit.length - u.length)).length =
              (whd :: wtl).length - (alt.lit.length - u.length) := List.length_drop _ _
          rw [hwd] at hld
          simp only [List.length_cons] at hld ⊢
          omega
        have hpw : (alt.lit.drop u.length).isPrefixOf (pyLower (whd :: wtl)) = true := by
          refine prefb_append_elim _ _ _ ?_ hdropP
          rw [pyLower_length]
          simp only [List.length_drop]
          omega
        rw [hpw] at hk2
        simp only [Bool.not_true, Bool.false_or, Bool.and_eq_true] at hk2
        obtain ⟨hdne, hwd2⟩ := hk2
        have hdne' : d ≠ '.' := of_decide_eq_true hdne
        have hdropfull : (u ++ (whd :: (wtl ++ s))).drop alt.lit.length =
            d :: (ds ++ s) := by
          rw [List.drop_append_eq_append_drop,
            List.drop_eq_nil_of_le (Nat.le_of_lt hul), List.nil_append]
          have hshape : whd :: (wtl ++ s) = (whd :: wtl) ++ s := rfl
          rw [hshape, List.drop_append_eq_append_drop, hwd,
            Nat.sub_eq_zero_of_le (Nat.le_of_lt hwlt), List.drop_zero]
          rfl
        rw [hdropfull]
        show (if d = '.' then
            if alt.dot = true then
              if isWordCharOpt (nextCharAt (ds ++ s) after) = true then some alt.lit.length
              else some (alt.lit.length + 1)
            else some alt.lit.length
          else if isWordCharOpt (some d) = true then none else some alt.lit.length) = none
        rw [if_neg hdne']
        rw [if_pos]
        show isWordChar d = true
        exact hwd2
    · unfold altMatch
      rw [if_neg hp, if_neg hfull]

theorem firstAlt_boundary (alts : List WAlt) (u : List Char) (hu : u ≠ [])
    (whd : Char) (wtl s : List Char) (after : Option Char)
    (hw : isWordChar whd = true)
    (hx : ∀ alt ∈ alts, crossAltOK alt (whd :: wtl) = true) :
    firstAlt alts (u ++ (whd :: (wtl ++ s))) after = firstAlt alts u (some whd) := by
  induction alts with
  | nil => rfl
  | cons a rest ih =>
    rw [firstAlt, firstAlt]
    rw [altMatch_boundary a u hu whd wtl s after hw (hx a (by simp))]
    cases hm2 : altMatch a u (some whd) with
    | some n => rfl
    | none => exact ih fun alt hm => hx alt (by simp [hm])

theorem patMatchAt_boundary (p : WordPat) (prev : Option Char) (u : List Char)
    (hu : u ≠ []) (whd : Char) (wtl s : List Char) (after : Option Char)
    (hw : isWordChar whd = true) (hx : crossOpaque p (whd :: wtl) = true) :
    patMatchAt p prev (u ++ (whd :: (wtl ++ s))) after = patMatchAt p prev u (some whd) := by
  unfold patMatchAt
  by_cases hpv : isWordCharOpt prev = true
  · rw [if_pos hpv, if_pos hpv]
  · rw [if_neg hpv, if_neg hpv]
    exact firstAlt_boundary p.alts u hu whd wtl s after hw
      fun alt hm => List.all_eq_true.mp hx alt hm

def replWords : List Seg → List (List Char)
  | [] => []
  | .orig _ :: t => replWords t
  | .repl w :: t => w :: replWords t

def altOK : List Seg → Bool
  | [] => true
  | .repl _ :: t => altOK t
  | .orig _ :: t =>
    match t with
    | .orig _ :: _ => false
    | _ => altOK t

def headOrig : List Seg → Bool
  | .orig _ :: _ => true
  | _ => false

theorem replWords_append (a b : List Seg) :
    replWords (a ++ b) = replWords a ++ replWords b := by
  induction a with
  | nil => rfl
  | cons sg t ih =>
    cases sg with
    | orig u =>
      show replWords (.orig u :: (t ++ b)) = replWords (.orig u :: t) ++ replWords b
      rw [replWords, replWords, ih]
    | repl w =>
      show replWords (.repl w :: (t ++ b)) = replWords (.repl w :: t) ++ replWords b
      rw [replWords, replWords, ih]
      rfl

theorem replWords_consOrig (c : Char) (segs : List Seg) :
    replWords (consOrig c segs) = replWords segs := by
  cases segs with
  | nil => rfl
  | cons sg t =>
    cases sg with
    | orig u => rfl
    | repl w => rfl

theorem replWords_origSubGo (p : WordPat) (r : List Char) (after : Option Char) :
    ∀ (f : Nat) (u : List Char) (prev : Option Char) (w' : List Char),
      w' ∈ replWords (origSubGo p r f prev u after) → w' = r := by
  intro f
  induction f with
  | zero =>
    intro u prev w' hm
    cases u with
    | nil => rw [osg_nil] at hm; simp [replWords] at hm
    | cons c rest =>
      have hz : origSubGo p r 0 prev (c :: rest) after = [.orig (c :: rest)] := rfl
      rw [hz] at hm
      simp [replWords] at hm
  | succ f ih =>
    intro u prev w' hm
    cases u with
    | nil => rw [osg_nil] at hm; simp [replWords] at hm
    | cons c rest =>
      rw [osg_cons] at hm
      cases hpm : patMatchAt p prev (c :: rest) after with
      | some n =>
        rw [hpm] at hm
        rw [replWords] at hm
        rcases List.mem_cons.mp hm with he | ht
        · exact he
        · exact ih _ _ _ ht
      | none =>
        rw [hpm] at hm
        rw [replWords_consOrig] at hm
        exact ih _ _ _ hm

theorem altOK_consOrig (c : Char) (segs : List Seg) (h : altOK segs = true) :
    altOK (consOrig c segs) = true := by
  cases segs with
  | nil => rfl
  | cons sg t =>
    cases sg with
    | orig u =>
      show altOK (.orig (c :: u) :: t) = true
      cases t with
      | nil => rfl
      | cons sg2 t2 =>
        cases sg2 with
        | orig v => exact h
        | repl w => exact h
    | repl w => exact h

theorem altOK_origSubGo (p : WordPat) (r : List Char) (after : Option Char) :
    ∀ (f : Nat) (u : List Char) (prev : Option Char),
      altOK (origSubGo p r f prev u after) = true := by
  intro f
  induction f with
  | zero =>
    intro u prev
    cases u with
    | nil => rw [osg_nil]; rfl
    | cons c rest =>
      have hz : origSubGo p r 0 prev (c :: rest) after = [.orig (c :: rest)] := rfl
      rw [hz]
      rfl
  | succ f ih =>
    intro u prev
    cases u with
    | nil => rw [osg_nil]; rfl
    | cons c rest =>
      rw [osg_cons]
      cases hpm : patMatchAt p prev (c :: rest) after with
      | some n =>
        show altOK (.repl r :: _) = true
        exact ih _ _
      | none => exact altOK_consOrig _ _ (ih _ _)

theorem altOK_append (b : List Seg) (hb : altOK b = true) (hh : headOrig b = false) :
    ∀ (a : List Seg), altOK a = true → altOK (a ++ b) = true := by
  intro a
  induction a with
  | nil => intro _; exact hb
  | cons sg t ih =>
    intro ha
    cases sg with
    | repl w =>
      show altOK (.repl w :: (t ++ b)) = true
      exact ih ha
    | orig u =>
      cases t with
      | nil =>
        show altOK (.orig u :: b) = true
        cases b with
        | nil => rfl
        | cons sg2 b' =>
          cases sg2 with
          | orig v => exact absurd hh (by simp [headOrig])
          | repl w => exact hb
      | cons sg2 t2 =>
        cases sg2 with
        | orig v => exact absurd ha (by simp [altOK])
        | repl w =>
          show altOK (.orig u :: .repl w :: (t2 ++ b)) = true
          show altOK (.repl w :: (t2 ++ b)) = true
          exact ih ha

theorem altOK_segSub (p : WordPat) (r : List Char) :
    ∀ (segs : List Seg) (prev : Option Char), altOK segs = true →
      altOK (segSub p r prev segs) = true := by
  intro segs
  induction segs with
  | nil => intro prev _; rfl
  | cons sg t ih =>
    intro prev h
    cases sg with
    | repl w =>
      show altOK (.repl w :: segSub p r (lastPrev w prev) t) = true
      exact ih _ h
    | orig u =>
      show altOK (origSubGo p r u.length prev u (flatten t).head? ++
        segSub p r (lastPrev u prev) t) = true
      cases t with
      | nil =>
        show altOK (origSubGo p r u.length prev u (flatten []).head? ++ []) = true
        rw [List.append_nil]
        exact altOK_origSubGo p r _ _ _ _
      | cons sg2 t2 =>
        cases sg2 with
        | orig v => exact absurd h (by simp [altOK])
        | repl w =>
          refine altOK_append _ ?_ ?_ _ (altOK_origSubGo p r _ _ _ _)
          · exact ih _ h
          · show headOrig (.repl w :: segSub p r (lastPrev w (lastPrev u prev)) t2) = false
            rfl

theorem replWords_segSub (p : WordPat) (r : List Char) :
    ∀ (segs : List Seg) (prev : Option Char) (w' : List Char),
      w' ∈ replWords (segSub p r prev segs) → w' = r ∨ w' ∈ replWords segs := by
  intro segs
  induction segs with
  | nil => intro prev w' hm; simp [segSub, replWords] at hm
  | cons sg t ih =>
    intro prev w' hm
    cases sg with
    | repl w =>
      rw [show segSub p r prev (.repl w :: t) =
        .repl w :: segSub p r (lastPrev w prev) t from rfl, replWords] at hm
      rcases List.mem_cons.mp hm with he | ht
      · right
        rw [replWords]
        exact List.mem_cons.mpr (Or.inl he)
      · rcases ih _ _ ht with hr | hold
        · exact Or.inl hr
        · right
          rw [replWords]
          exact List.mem_cons.mpr (Or.inr hold)
    | orig u =>
      rw [show segSub p r prev (.orig u :: t) =
        origSubGo p r u.length prev u (flatten t).head? ++
          segSub p r (lastPrev u prev) t from rfl, replWords_append] at hm
      rcases List.mem_append.mp hm with hA | hB
      · exact Or.inl (replWords_origSubGo p r _ _ _ _ _ hA)
      · rcases ih _ _ hB with hr | hold
        · exact Or.inl hr
        · right
          rw [replWords]
          exact hold

theorem flatten_nil : flatten [] = [] := rfl

theorem flatten_orig_cons (u : List Char) (t : List Seg) :
    flatten (.orig u :: t) = u ++ flatten t := rfl

theorem flatten_repl_cons (w : List Char) (t : List Seg) :
    flatten (.repl w :: t) = w ++ flatten t := rfl

theorem origGo_correct (p : WordPat) (r : List Char) (hwf : patWFb p = true)
    (t : List Seg)
    (hhead : t = [] ∨ ∃ w t', t = Seg.repl w :: t' ∧ headWordOK w = true ∧
      crossOpaque p w = true)
    (IHt : ∀ (prev : Option Char) (f : Nat), (flatten t).length ≤ f →
      wordSubGo p r f prev (flatten t) none = flatten (segSub p r prev t)) :
    ∀ (N : Nat) (u : List Char), u.length ≤ N → ∀ (prev : Option Char) (f : Nat),
      (u ++ flatten t).length ≤ f →
      wordSubGo p r f prev (u ++ flatten t) none =
        flatten (origSubGo p r u.length prev u (flatten t).head?) ++
          flatten (segSub p r (lastPrev u prev) t) := by
  intro N
  induction N with
  | zero =>
    intro u hN prev f hf
    have hu : u = [] := List.eq_nil_of_length_eq_zero (Nat.le_zero.mp hN)
    subst hu
    rw [List.nil_append] at hf ⊢
    rw [IHt prev f hf, osg_nil, flatten_nil, List.nil_append, lastPrev_nil]
  | succ N ihN =>
    intro u hN prev f hf
    cases u with
    | nil =>
      rw [List.nil_append] at hf ⊢
      rw [IHt prev f hf, osg_nil, flatten_nil, List.nil_append, lastPrev_nil]
    | cons c u' =>
      cases f with
      | zero =>
        exfalso
        have : 1 ≤ ((c :: u') ++ flatten t).length := by
          simp
        omega
      | succ g =>
        have hpm : patMatchAt p prev ((c :: u') ++ flatten t) none =
            patMatchAt p prev (c :: u') (flatten t).head? := by
          rcases hhead with ht0 | ⟨w, t', hts, hwh, hcx⟩
          · subst ht0
            rw [flatten_nil, List.append_nil]
            rfl
          · subst hts
            cases w with
            | nil => simp [headWordOK] at hwh
            | cons whd wtl =>
              have hfl : flatten (Seg.repl (whd :: wtl) :: t') =
                  whd :: (wtl ++ flatten t') := rfl
              rw [hfl]
              exact patMatchAt_boundary p prev (c :: u') (by simp) whd wtl
                (flatten t') none hwh hcx
        have hfc : (c :: u') ++ flatten t = c :: (u' ++ flatten t) := rfl
        rw [hfc] at hf
        rw [hfc, wsg_cons]
        rw [show patMatchAt p prev (c :: (u' ++ flatten t)) none =
          patMatchAt p prev (c :: u') (flatten t).head? from hpm]
        cases hm : patMatchAt p prev (c :: u') (flatten t).head? with
        | none =>
          show c :: wordSubGo p r g (some c) (u' ++ flatten t) none =
            flatten (origSubGo p r (c :: u').length prev (c :: u') (flatten t).head?) ++
              flatten (segSub p r (lastPrev (c :: u') prev) t)
          have hg : (u' ++ flatten t).length ≤ g := by
            simp only [List.length_cons] at hf
            omega
          rw [ihN u' (Nat.le_of_succ_le_succ hN) (some c) g hg]
          rw [show (c :: u').length = u'.length + 1 from rfl, osg_cons, hm]
          rw [flatten_consOrig, lastPrev_cons, List.cons_append]
        | some n =>
          show r ++ wordSubGo p r g ((c :: (u' ++ flatten t))[n - 1]?)
              ((c :: (u' ++ flatten t)).drop n) none =
            flatten (origSubGo p r (c :: u').length prev (c :: u') (flatten t).head?) ++
              flatten (segSub p r (lastPrev (c :: u') prev) t)
          have hn1 : 1 ≤ n := patMatchAt_pos p hwf _ _ _ _ hm
          have hnle : n ≤ (c :: u').length := patMatchAt_le _ _ _ _ _ hm
          have hidx : (c :: (u' ++ flatten t))[n - 1]? = (c :: u')[n - 1]? := by
            rw [← hfc, List.getElem?_append]
            rw [if_pos]
            simp only [List.length_cons]
            simp only [List.length_cons] at hnle
            omega
          have hdropn : (c :: (u' ++ flatten t)).drop n = (c :: u').drop n ++ flatten t := by
            rw [← hfc, List.drop_append_eq_append_drop, Nat.sub_eq_zero_of_le hnle,
              List.drop_zero]
          rw [hidx, hdropn]
          have hlend : ((c :: u').drop n).length ≤ N := by
            have hld : ((c :: u').drop n).length = (c :: u').length - n :=
              List.length_drop _ _
            simp only [List.length_cons] at hld hN
            omega
          have hgf : ((c :: u').drop n ++ flatten t).length ≤ g := by
            have hld : ((c :: u').drop n).length = (c :: u').length - n :=
              List.length_drop _ _
            simp only [List.length_cons] at hld
            simp only [List.length_append, List.length_cons] at hf
            simp only [List.length_append, hld]
            omega
          rw [ihN ((c :: u').drop n) hlend ((c :: u')[n - 1]?) g hgf]
          rw [show (c :: u').length = u'.length + 1 from rfl, osg_cons, hm]
          rw [flatten_repl_cons]
          rw [origSubGo_fuel p r hwf (flatten t).head? ((c :: u').drop n).length u'.length
            ((c :: u').drop n) ((c :: u')[n - 1]?) (Nat.le_refl _) ?hfu]
          case hfu =>
            have hld : ((c :: u').drop n).length = (c :: u').length - n :=
              List.length_drop _ _
            simp only [List.length_cons] at hld
            omega
          rw [lastPrev_drop (c :: u') n prev hn1 hnle]
          rw [List.append_assoc]

theorem segSub_correct (p : WordPat) (r : List Char) (hwf : patWFb p = true) :
    ∀ (segs : List Seg), altOK segs = true →
      (∀ w ∈ replWords segs, wordOKb w = true ∧ patOpaque p w = true ∧
        crossOpaque p w = true) →
      ∀ (prev : Option Char) (f : Nat), (flatten segs).length ≤ f →
        wordSubGo p r f prev (flatten segs) none = flatten (segSub p r prev segs) := by
  intro segs
  induction segs with
  | nil =>
    intro _ _ prev f _
    rw [flatten_nil, wsg_nil]
    rfl
  | cons sg t ih =>
    intro halt hinv prev f hf
    cases sg with
    | repl w =>
      obtain ⟨hok, hop, hcx⟩ := hinv w (by rw [replWords]; exact List.mem_cons_self _ _)
      rw [flatten_repl_cons] at hf ⊢
      rw [wordSubGo_copy p r w false prev (flatten t) none f hop (fun h => by cases h) hf]
      have hfl : (flatten t).length ≤ f - w.length := by
        simp only [List.length_append] at hf
        omega
      have haltT : altOK t = true := halt
      have hinvT : ∀ w' ∈ replWords t, wordOKb w' = true ∧ patOpaque p w' = true ∧
          crossOpaque p w' = true :=
        fun w' hm => hinv w' (by rw [replWords]; exact List.mem_cons.mpr (Or.inr hm))
      rw [ih haltT hinvT (lastPrev w prev) (f - w.length) hfl]
      rw [show segSub p r prev (.repl w :: t) =
        .repl w :: segSub p r (lastPrev w prev) t from rfl, flatten_repl_cons]
    | orig u =>
      rw [flatten_orig_cons] at hf ⊢
      have hts : t = [] ∨ ∃ w t', t = Seg.repl w :: t' := by
        cases t with
        | nil => exact Or.inl rfl
        | cons sg2 t2 =>
          cases sg2 with
          | orig v => exact absurd halt (by simp [altOK])
          | repl w => exact Or.inr ⟨w, t2, rfl⟩
      have haltT : altOK t = true := by
        rcases hts with h0 | ⟨w, t', he⟩
        · subst h0
          rfl
        · subst he
          exact halt
      have hinvT : ∀ w' ∈ replWords t, wordOKb w' = true ∧ patOpaque p w' = true ∧
          crossOpaque p w' = true :=
        fun w' hm => hinv w' (by rw [replWords]; exact hm)
      have hhead2 : t = [] ∨ ∃ w t', t = Seg.repl w :: t' ∧ headWordOK w = true ∧
          crossOpaque p w = true := by
        rcases hts with h0 | ⟨w, t', he⟩
        · exact Or.inl h0
        · right
          obtain ⟨hok, _, hcx⟩ := hinvT w (by
            subst he
            rw [replWords]
            exact List.mem_cons_self _ _)
          rw [wordOKb, Bool.and_eq_true] at hok
          exact ⟨w, t', he, hok.2, hcx⟩
      have IHt : ∀ (prev2 : Option Char) (f2 : Nat), (flatten t).length ≤ f2 →
          wordSubGo p r f2 prev2 (flatten t) none = flatten (segSub p r prev2 t) :=
        fun prev2 f2 hf2 => ih haltT hinvT prev2 f2 hf2
      rw [origGo_correct p r hwf t hhead2 IHt u.length u (Nat.le_refl _) prev f hf]
      rw [show segSub p r prev (.orig u :: t) =
        origSubGo p r u.length prev u (flatten t).head? ++
          segSub p r (lastPrev u prev) t from rfl, flatten_append]

theorem fold_correct :
    ∀ (maps : List (WordPat × List Char)) (segs : List Seg),
      mapsWFb maps = true → altOK segs = true →
      (∀ w ∈ replWords segs, wordOKb w = true ∧
        ∀ q ∈ maps, opaquePairB q.1 w = true) →
      flatten (maps.foldl stepSegs segs) =
        maps.foldl (fun t pr => wordSub pr.1 pr.2 t) (flatten segs) := by
  intro maps
  induction maps with
  | nil =>
    intro segs _ _ _
    rfl
  | cons pr t ih =>
    intro segs hwf halt hinv
    obtain ⟨p, w⟩ := pr
    have hwf2 : (patWFb p && wordOKb w && t.all (fun q => opaquePairB q.1 w) &&
        mapsWFb t) = true := hwf
    rw [Bool.and_eq_true, Bool.and_eq_true, Bool.and_eq_true] at hwf2
    obtain ⟨⟨⟨hP, hW⟩, hL⟩, hT⟩ := hwf2
    have hmain : wordSub p w (flatten segs) = flatten (segSub p w none segs) := by
      unfold wordSub
      refine segSub_correct p w hP segs halt ?_ none (flatten segs).length (Nat.le_refl _)
      intro w' hm
      obtain ⟨hok, hq⟩ := hinv w' hm
      have hpq := hq (p, w) (List.mem_cons_self _ _)
      rw [opaquePairB, Bool.and_eq_true] at hpq
      exact ⟨hok, hpq.1, hpq.2⟩
    rw [List.foldl_cons, List.foldl_cons, hmain]
    refine ih (stepSegs segs (p, w)) hT (altOK_segSub p w _ none halt) ?_
    intro w' hm
    rcases replWords_segSub p w segs none w' hm with hr | hold
    · subst hr
      refine ⟨hW, ?_⟩
      intro q hqm
      exact List.all_eq_true.mp hL q hqm
    · obtain ⟨hok, hq⟩ := hinv w' hold
      exact ⟨hok, fun q hqm => hq q (List.mem_cons.mpr (Or.inr hqm))⟩

theorem abbrev_mapsWF : mapsWFb ABBREVIATION_MAPPINGS = true := by decide

/-- C9: abbreviation expansion is equivalent to the no-rescan reading.
The sequential per-pattern `re.sub` over the whole accumulated string
(`preprocess_address`, as the code runs it) coincides, for EVERY input,
with the single left-to-right pass in declared pattern order in which
text produced by an earlier pattern's replacement is never matched again
by a later pattern (`preprocess_address_norescan`, the segment
semantics): every replacement word is opaque to every later pattern, so
later patterns can neither match inside earlier replacement output nor
extend a match across its boundary. -/
theorem preprocess_address_no_rescan (address : String) :
    preprocess_address address = preprocess_address_norescan address := by
  unfold preprocess_address preprocess_address_norescan
  by_cases h : address.data = []
  · rw [if_pos h, if_pos h]
  · rw [if_neg h, if_neg h]
    refine congrArg String.mk ?_
    rw [fold_correct ABBREVIATION_MAPPINGS [Seg.orig address.data] abbrev_mapsWF rfl
      (fun w hm => absurd hm (by simp [replWords]))]
    have hfl : flatten [Seg.orig address.data] = address.data := by
      rw [flatten_orig_cons, flatten_nil, List.append_nil]
    rw [hfl]
